import Mathlib

/-!
Verification development for the announcement-driven trading engine
(`bnc.py`, `bnc_anc_pkg/`): the title decision engine, the TP/SL price
rounding of the order-placement paths, the notional-to-lot fallback, the
order-pair fill watcher, the handler fan-out and the feed supervisor.

Strings are modelled as `List Char`; Python regular-expression operations
are embedded as explicit scanning functions that mirror the backtracking
behaviour of the concrete patterns used by the source.  Machine floats are
modelled as exact rationals.
-/

namespace BncAnc

/-- Character class `[A-Z0-9]` used by the ticker regexes. -/
def isUpperAlnum (c : Char) : Bool :=
  ('A' ≤ c && c ≤ 'Z') || ('0' ≤ c && c ≤ '9')

/-- Character class `\d`. -/
def isDig (c : Char) : Bool :=
  '0' ≤ c && c ≤ '9'

/-- Python `\s` (ASCII range): space, tab, newline, carriage return, form feed, vertical tab. -/
def isWs (c : Char) : Bool :=
  c = ' ' || c = '\t' || c = '\n' || c = '\r' || c = '\x0b' || c = '\x0c'

/-- Python `\w` (ASCII range): letters, digits and underscore. -/
def isWordChar (c : Char) : Bool :=
  c.isAlpha || isDig c || c = '_'

/-- Lowercasing of a character sequence, modelling Python `str.lower()` (ASCII). -/
def lowerList (t : List Char) : List Char :=
  t.map Char.toLower

/-- Boolean substring test, modelling the Python `in` operator on strings:
`containsSub pat s` holds iff `pat` occurs contiguously inside `s`. -/
def containsSub (pat : List Char) : List Char → Bool
  | [] => pat.isEmpty
  | c :: rest => (List.take pat.length (c :: rest) == pat) || containsSub pat rest

/-- Insertion into the sorted duplicate-free list representing a Python `set`
of strings; the final `sorted(bases)` of the source is then the identity on
this representation. -/
def insertBase (x : String) : List String → List String
  | [] => [x]
  | y :: rest =>
      if x = y then y :: rest
      else if x < y then x :: y :: rest
      else y :: insertBase x rest

/-- Scanner for `re.findall(r"\(([A-Z0-9]{2,15})\)", title)`.  A match is an
opening parenthesis, a maximal run of `[A-Z0-9]` of length 2 to 15, then a
closing parenthesis.  Since a matched region contains no `'('` other than its
first character, rescanning from the character after the `'('` finds exactly
the same later matches as the engine's continue-after-match scan, so the scan
can recurse structurally. -/
def parenScan : List Char → List (List Char)
  | [] => []
  | c :: rest =>
      if c = '(' then
        if 2 ≤ (rest.takeWhile isUpperAlnum).length ∧ (rest.takeWhile isUpperAlnum).length ≤ 15 ∧
            (rest.drop (rest.takeWhile isUpperAlnum).length).head? = some ')' then
          rest.takeWhile isUpperAlnum :: parenScan rest
        else parenScan rest
      else parenScan rest

/-- Test for `re.fullmatch(r"\d{4}-\d{2}-\d{2}", tok)`. -/
def isDateTok (t : List Char) : Bool :=
  match t with
  | [a, b, c, d, e, f, g, h, i, j] =>
      isDig a && isDig b && isDig c && isDig d && e = '-' &&
      isDig f && isDig g && h = '-' && isDig i && isDig j
  | _ => false

/-- Word-boundary test for the position after a match: end of input or a
non-word character. -/
def boundaryAfter (l : List Char) : Bool :=
  match l.head? with
  | none => true
  | some d => !isWordChar d

/-- Scanner for `re.findall(r"\b([A-Z0-9]{2,30})USDT\b", title)`.  The
argument `prev` records whether the previous character is a word character
(it is `false` at the start of the string).  A match requires a word
boundary, then a maximal `[A-Z0-9]` run of length 6 to 34 ending in the
literal `USDT` and followed by a word boundary; the greedy group is the run
without its trailing `USDT`.  Positions inside a run have a word character
before them and can start no match, so the scan recurses structurally. -/
def usdtScan : Bool → List Char → List (List Char)
  | _, [] => []
  | prev, c :: rest =>
      if prev = false ∧ isUpperAlnum c = true then
        if 6 ≤ (c :: rest.takeWhile isUpperAlnum).length ∧
            (c :: rest.takeWhile isUpperAlnum).length ≤ 34 ∧
            (c :: rest.takeWhile isUpperAlnum).drop
              ((c :: rest.takeWhile isUpperAlnum).length - 4) = "USDT".data ∧
            boundaryAfter (rest.drop ((c :: rest.takeWhile isUpperAlnum).length - 1)) = true then
          (c :: rest.takeWhile isUpperAlnum).take
              ((c :: rest.takeWhile isUpperAlnum).length - 4) :: usdtScan (isWordChar c) rest
        else usdtScan (isWordChar c) rest
      else usdtScan (isWordChar c) rest

/-- Greedy-with-backtracking search for the `\s+(.+)` part of
`re.search(r"delist\s+(.+)", title, re.I)`: try the longest whitespace
prefix first and shrink until the remaining text starts with a character
other than a newline; the group is then everything up to the next newline. -/
def findK (tail : List Char) : Nat → Option (List Char)
  | 0 => none
  | k + 1 =>
      match tail.get? (k + 1) with
      | some d =>
          if d = '\n' then findK tail k
          else some ((tail.drop (k + 1)).takeWhile (fun c => c ≠ '\n'))
      | none => findK tail k

/-- The `\s+(.+)` tail of the delist search, applied to the text that follows
a case-insensitive `delist`. -/
def delistTail (tail : List Char) : Option (List Char) :=
  findK tail (tail.takeWhile isWs).length

/-- Embedding of `re.search(r"delist\s+(.+)", title, flags=re.I)`: scan for
the leftmost position where the full pattern matches and return group 1. -/
def findDelistAux : List Char → Option (List Char)
  | [] => none
  | c :: rest =>
      if lowerList ((c :: rest).take 6) == "delist".data then
        match delistTail ((c :: rest).drop 6) with
        | some g => some g
        | none => findDelistAux rest
      else findDelistAux rest

/-- Embedding of `seg.split(" on ")[0]`: the text before the first
occurrence of the four characters `" on "`. -/
def takeBeforeOn : List Char → List Char
  | [] => []
  | c :: rest =>
      if (c :: rest).take 4 == " on ".data then []
      else c :: takeBeforeOn rest

/-- Character class `[,\s]` of the first separator branch. -/
def isCS (c : Char) : Bool :=
  c = ',' || isWs c

/-- Backtracking for the branch `[,\s]+and\s+` of the delist separator:
starting from the maximal `[,\s]` run, shrink until the literal `and`
followed by at least one whitespace character is found; the whitespace after
`and` is then taken greedily. -/
def b1find (l : List Char) : Nat → Option Nat
  | 0 => none
  | k + 1 =>
      if (l.drop (k + 1)).take 3 == "and".data then
        let ws := ((l.drop (k + 4)).takeWhile isWs).length
        if 1 ≤ ws then some (k + 4 + ws) else b1find l k
      else b1find l k

/-- Length of the separator of `re.split(r"[,\s]+and\s+|,\s*|\s+", seg)`
matched at the head of `l`, if any; the three branches are tried in the
pattern's order. -/
def sepMatch (l : List Char) : Option Nat :=
  match b1find l (l.takeWhile isCS).length with
  | some n => some n
  | none =>
      match l with
      | [] => none
      | c :: rest =>
          if c = ',' then some (1 + (rest.takeWhile isWs).length)
          else if isWs c then some ((c :: rest).takeWhile isWs).length
          else none

/-- Splitting loop of `re.split`: scan left to right, cut at each separator
match and continue after it.  Every step consumes at least one character, so
fuel equal to the length of the input suffices. -/
def resplitAux : Nat → List Char → List Char → List (List Char)
  | 0, acc, _ => [acc.reverse]
  | _, acc, [] => [acc.reverse]
  | fuel + 1, acc, c :: rest =>
      match sepMatch (c :: rest) with
      | some n => acc.reverse :: resplitAux fuel [] (rest.drop (n - 1))
      | none => resplitAux fuel (c :: acc) rest

/-- Embedding of `re.split(r"[,\s]+and\s+|,\s*|\s+", seg)`. -/
def resplit (l : List Char) : List (List Char) :=
  resplitAux (l.length + 1) [] l

/-- Embedding of Python `str.strip()`: drop whitespace from both ends. -/
def stripWs (l : List Char) : List Char :=
  ((l.dropWhile isWs).reverse.dropWhile isWs).reverse

/-- Embedding of `_bases_from_parentheses` (`decision.py`): every
parenthesized `[A-Z0-9]{2,15}` token that is not a `\d{4}-\d{2}-\d{2}` date
is uppercased and added; the membership test against
`{USDT, USDC, USD, FUTURES, ALPHA}` is followed by `pass` in the source, so
both branches of that test add the token. -/
def basesFromParentheses (t : List Char) : List String :=
  (parenScan t).foldl
    (fun out tok =>
      if isDateTok tok then out
      else
        if tok.map Char.toUpper == "USDT".data || tok.map Char.toUpper == "USDC".data ||
            tok.map Char.toUpper == "USD".data || tok.map Char.toUpper == "FUTURES".data ||
            tok.map Char.toUpper == "ALPHA".data then
          insertBase (String.mk (tok.map Char.toUpper)) out
        else insertBase (String.mk (tok.map Char.toUpper)) out)
    []

/-- Embedding of `_bases_from_usdt_pairs` (`decision.py`). -/
def basesFromUsdtPairs (t : List Char) : List String :=
  (usdtScan false t).foldl (fun out m => insertBase (String.mk (m.map Char.toUpper)) out) []

/-- Embedding of `_bases_from_delist` (`decision.py`): take the text after
the first case-insensitive `delist`, truncate at the first `" on "`, split
on commas and the word `and`, and keep the stripped uppercased tokens that
fully match `[A-Z0-9]{2,15}` and are not a quote-currency token. -/
def basesFromDelist (t : List Char) : List String :=
  match findDelistAux t with
  | none => []
  | some seg =>
      (resplit (takeBeforeOn seg)).foldl
        (fun out p =>
          if (2 ≤ ((stripWs p).map Char.toUpper).length ∧
              ((stripWs p).map Char.toUpper).length ≤ 15 ∧
              ((stripWs p).map Char.toUpper).all isUpperAlnum) ∧
              ¬((stripWs p).map Char.toUpper == "USDT".data ∨
                (stripWs p).map Char.toUpper == "USDC".data ∨
                (stripWs p).map Char.toUpper == "USD".data) then
            insertBase (String.mk ((stripWs p).map Char.toUpper)) out
          else out)
        []

/-- The listing trigger test of `decide_trade_from_title`: any of the five
phrases occurs in the lowercased title. -/
def listingTrigger (tl : List Char) : Bool :=
  containsSub "will add".data tl || containsSub "will list".data tl ||
  containsSub "will be available".data tl || containsSub "will launch".data tl ||
  containsSub "futures will launch".data tl

/-- Embedding of `re.search(r"\bdelist\b", tl)` on the already lowercased
title: the literal `delist` bounded by word boundaries on both sides.  The
argument records whether the previous character is a word character. -/
def hasDelistWord : Bool → List Char → Bool
  | _, [] => false
  | prev, c :: rest =>
      ((!prev) && ((c :: rest).take 6 == "delist".data) &&
        (match (c :: rest).get? 6 with
         | none => true
         | some d => !isWordChar d))
      || hasDelistWord (isWordChar c) rest

/-- Embedding of `decide_trade_from_title` (`decision.py`): delisting rule
first (kind `"short"`), then the listing triggers (kind `"long"`), else
`"none"`; a branch whose extracted base set is empty resets to `"none"`.
The sorted duplicate-free list is the model of `sorted(bases)`. -/
def decide_trade_from_title (title : String) : String × List String :=
  if title.data.isEmpty then ("none", [])
  else
    let t := title.data
    let tl := lowerList t
    if containsSub "will delist".data tl || hasDelistWord false tl then
      let bases := basesFromDelist t
      if bases.isEmpty then ("none", []) else ("short", bases)
    else if listingTrigger tl then
      let bases := (basesFromUsdtPairs t).foldl (fun acc x => insertBase x acc) (basesFromParentheses t)
      if bases.isEmpty then ("none", []) else ("long", bases)
    else ("none", [])

/-- Modelled from the spec: `decide_event_from_title`, the decision function
imported by `handler.py` and the tests but missing from the sources given,
maps the title to the spec's decision kinds (`"listing"` for a long entry,
`"delisting"` for a short entry, `"none"` otherwise) with the same extracted
bases as `decide_trade_from_title`. -/
def decide_event_from_title (title : String) : String × List String :=
  let r := decide_trade_from_title title
  if r.1 = "short" then ("delisting", r.2)
  else if r.1 = "long" then ("listing", r.2)
  else ("none", r.2)

/-! ## Price rounding and TP/SL computation (`bnc.py`, `kucoin.py`, `mexc.py`) -/

/-- Rounding of `Decimal.to_integral_value(rounding=ROUND_DOWN)`: toward zero. -/
def truncQ (r : ℚ) : ℤ :=
  if 0 ≤ r then ⌊r⌋ else ⌈r⌉

/-- Rounding of `Decimal.to_integral_value(rounding=ROUND_UP)`: away from zero. -/
def awayQ (r : ℚ) : ℤ :=
  if 0 ≤ r then ⌈r⌉ else ⌊r⌋

/-- Embedding of `_round_down_to_tick`: price as a whole number of ticks,
rounded toward zero; a non-positive tick returns the price unchanged. -/
def round_down_to_tick (px tick : ℚ) : ℚ :=
  if tick ≤ 0 then px else (truncQ (px / tick) : ℚ) * tick

/-- Embedding of `_round_up_to_tick`: price as a whole number of ticks,
rounded away from zero; a non-positive tick returns the price unchanged. -/
def round_up_to_tick (px tick : ℚ) : ℚ :=
  if tick ≤ 0 then px else (awayQ (px / tick) : ℚ) * tick

/-- Embedding of `_calc_raw_tp_sl`: raw take-profit and stop-loss levels
from the reference price and the configured percentages; any side other
than `buy`/`sell` (case-insensitive) raises. -/
def calc_raw_tp_sl (ref : ℚ) (side : String) (tp_pct sl_pct : ℚ) :
    Except String (ℚ × ℚ) :=
  if lowerList side.data = "buy".data then
    Except.ok (ref * (1 + tp_pct / 100), ref * (1 - sl_pct / 100))
  else if lowerList side.data = "sell".data then
    Except.ok (ref * (1 - tp_pct / 100), ref * (1 + sl_pct / 100))
  else Except.error "side must be buy or sell"

/-- Embedding of the TP/SL pricing section of
`place_market_with_attached_tpsl` (`bnc.py`, lines 220-237): round the raw
levels in the protective direction and, only when the rounded level fails to
clear the reference price, re-round to `min_ticks_gap` ticks past it. -/
def computeTpSlPrices (ref : ℚ) (side : String) (tp_pct sl_pct tick : ℚ)
    (min_ticks_gap : ℤ) : Except String (ℚ × ℚ) :=
  match calc_raw_tp_sl ref side tp_pct sl_pct with
  | Except.error e => Except.error e
  | Except.ok (tp_raw, sl_raw) =>
      if lowerList side.data = "buy".data then
        let tp0 := round_up_to_tick tp_raw tick
        let tp1 := if tp0 ≤ ref then round_up_to_tick (ref + tick * min_ticks_gap) tick else tp0
        let sl0 := round_down_to_tick sl_raw tick
        let sl1 := if ref ≤ sl0 then round_down_to_tick (ref - tick * min_ticks_gap) tick else sl0
        Except.ok (tp1, sl1)
      else
        let tp0 := round_down_to_tick tp_raw tick
        let tp1 := if ref ≤ tp0 then round_down_to_tick (ref - tick * min_ticks_gap) tick else tp0
        let sl0 := round_up_to_tick sl_raw tick
        let sl1 := if sl0 ≤ ref then round_up_to_tick (ref + tick * min_ticks_gap) tick else sl0
        Except.ok (tp1, sl1)

/-- Embedding of the TP/SL pricing of the KuCoin split-order `trade`
(`kucoin.py`, lines 219-227): protective rounding only, with no minimum
tick-gap enforcement. -/
def kucoinTpSl (ref : ℚ) (side : String) (tp_pct sl_pct tick : ℚ) :
    Except String (ℚ × ℚ) :=
  match calc_raw_tp_sl ref side tp_pct sl_pct with
  | Except.error e => Except.error e
  | Except.ok (tp_raw, sl_raw) =>
      if lowerList side.data = "buy".data then
        Except.ok (round_up_to_tick tp_raw tick, round_down_to_tick sl_raw tick)
      else
        Except.ok (round_down_to_tick tp_raw tick, round_up_to_tick sl_raw tick)

/-- Embedding of `_calc_tp_sl` (`mexc.py`): identical raw computation, used
without any tick rounding on the MEXC spot path. -/
def mexc_calc_tp_sl (ref : ℚ) (side : String) (tp_pct sl_pct : ℚ) :
    Except String (ℚ × ℚ) :=
  calc_raw_tp_sl ref side tp_pct sl_pct

/-! ## Notional-to-lot fallback (`bnc.py`, lines 254-278) -/

/-- Classification of a rejection message as a quantity/parameter error:
`any(k in emsg for k in ("invalid", "quantity", "parameter", "valueqty"))`
on the lowercased message. -/
def quantityErr (e : String) : Bool :=
  containsSub "invalid".data (lowerList e.data) ||
  containsSub "quantity".data (lowerList e.data) ||
  containsSub "parameter".data (lowerList e.data) ||
  containsSub "valueqty".data (lowerList e.data)

/-- Embedding of the submission section of `place_market_with_attached_tpsl`:
`submit none` is the first attempt sized by notional (`valueQty`), and
`submit (some lots)` the resubmission with an integer `size`.  A rejection
that is not a quantity error propagates unchanged; otherwise the size is
recomputed as `int((notional / (px * mult)) // 1)` with
`px = ref or last_price`, failing with an explicit sizing error below the
minimum lot size. -/
def place_fallback (submit : Option ℤ → Except String String)
    (ref lastPrice mult notional : ℚ) (lotmin : ℤ) (symbol : String) :
    Except String String :=
  match submit none with
  | Except.ok r => Except.ok r
  | Except.error e =>
      if !quantityErr e then Except.error e
      else
        let px := if ref = 0 then lastPrice else ref
        if mult ≤ 0 then Except.error ("Contract multiplier missing for " ++ symbol)
        else
          let lots : ℤ := ⌊notional / (px * mult)⌋
          if lots < lotmin then
            Except.error ("Notional $" ++ toString notional ++ " maps to " ++ toString lots ++
              " lot(s) < min " ++ toString lotmin ++ " for " ++ symbol ++
              " (px=" ++ toString px ++ ", multiplier=" ++ toString mult ++ ")")
          else submit (some lots)

/-! ## KuCoin split-order trade and fill watcher (`kucoin.py`) -/

/-- One result of the open-position poll (`get_position`), with the fields
the trade path reads; values are the numeric JSON payload. -/
structure KcPos where
  avgEntryPrice : Option ℚ := none
  entryPrice : Option ℚ := none
  currentQty : Option ℚ := none
  pos : Option ℚ := none
  size : Option ℚ := none

/-- Python `a or b` on an optional numeric value: `none` and `0` are falsy. -/
def orQ (o : Option ℚ) (d : ℚ) : ℚ :=
  match o with
  | some x => if x = 0 then d else x
  | none => d

/-- Entry price read from a position:
`float(pos.get("avgEntryPrice") or pos.get("entryPrice") or 0)`. -/
def refOf (p : KcPos) : ℚ :=
  orQ p.avgEntryPrice (orQ p.entryPrice 0)

/-- Position size read from a position:
`abs(float(pos.get("currentQty") or pos.get("pos") or pos.get("size") or 0))`. -/
def qtyOf (p : KcPos) : ℚ :=
  |orQ p.currentQty (orQ p.pos (orQ p.size 0))|

/-- The bounded entry-price poll: up to `fuel` calls to `get_position`,
stopping at the first nonzero entry price; returns the last price read and
the last position polled. -/
def pollLoop (ps : Nat → KcPos) : Nat → Nat → ℚ × KcPos
  | _, 0 => (0, ps 0)
  | i, 1 => (refOf (ps i), ps i)
  | i, fuel + 2 =>
      let r := refOf (ps i)
      if r = 0 then pollLoop ps (i + 1) (fuel + 1) else (r, ps i)

/-- Environment of one KuCoin `trade` call: the contract fetch, the entry
order submission, the successive position polls, and the two protective
order submissions. -/
structure KcOracle where
  contractTick : Except String (Option ℚ)
  entry : Except String Unit
  positions : Nat → KcPos
  tpRes : Except String (Option String)
  slRes : Except String (Option String)

/-- Removal of a key from the order-pair mapping (Python `dict.pop`). -/
def eraseKey (oid : String) (m : List (String × String)) : List (String × String) :=
  m.filter (fun p => p.1 ≠ oid)

/-- Assignment `m[k] = v` on the order-pair mapping. -/
def setKey (k v : String) (m : List (String × String)) : List (String × String) :=
  (k, v) :: eraseKey k m

/-- Embedding of `KuCoinFuturesClient.trade` (`kucoin.py`, lines 191-266):
contract fetch, market entry sized by notional, bounded position poll for
the entry price (explicit failure when exhausted), protective TP/SL price
computation, position-size read (explicit failure when absent), the two
reduce-only orders, and the symmetric order-pair registration.  The result
carries the returned prices and the updated pair mapping. -/
def kucoinTrade (o : KcOracle) (side : String) (tp_pct sl_pct : ℚ)
    (pairs0 : List (String × String)) :
    Except String ((ℚ × ℚ) × List (String × String)) :=
  match o.contractTick with
  | Except.error e => Except.error e
  | Except.ok tickOpt =>
      let tick := orQ tickOpt (1 / 100)
      match o.entry with
      | Except.error e => Except.error e
      | Except.ok _ =>
          let rp := pollLoop o.positions 0 60
          if rp.1 = 0 then Except.error "entry price not found for position"
          else
            match kucoinTpSl rp.1 side tp_pct sl_pct tick with
            | Except.error e => Except.error e
            | Except.ok prices =>
                if qtyOf rp.2 = 0 then Except.error "position size not found"
                else
                  match o.tpRes with
                  | Except.error e => Except.error e
                  | Except.ok tpId =>
                      match o.slRes with
                      | Except.error e => Except.error e
                      | Except.ok slId =>
                          let pairs :=
                            match tpId, slId with
                            | some a, some b =>
                                if a ≠ "" ∧ b ≠ "" then setKey b a (setKey a b pairs0)
                                else pairs0
                            | _, _ => pairs0
                          Except.ok (prices, pairs)

/-- Error string of a non-2xx venue response in `_req` (`kucoin.py`):
`f"{r.status} {r.reason}. Body={txt}"`. -/
def reqErrMsg (status : ℕ) (reason body : String) : String :=
  toString status ++ " " ++ reason ++ ". Body=" ++ body

/-- Error string of a 2xx response whose embedded code is not the success
sentinel (`kucoin.py`): `f"KuCoin API error {code}: {msg}"`. -/
def kcApiErrMsg (code msg : String) : String :=
  "KuCoin API error " ++ code ++ ": " ++ msg

/-- Failure notification built by `handle_payload` (`handler.py`, lines
86-94): the error text is embedded verbatim after the header line. -/
def handlerFailureMsg (sideU symbol exName err rest : String) : String :=
  "❌ " ++ sideU ++ " " ++ symbol ++ " on " ++ exName ++ " failed\n" ++ err ++ "\n" ++ rest

/-- One decoded order-update notification of the private stream. -/
structure OrderNote where
  topic : String
  orderId : Option String
  status : Option String

/-- Terminal statuses recognized by the fill watcher. -/
def terminalStatuses : List String :=
  ["done", "filled", "match", "cancelled", "canceled"]

/-- Keys of the order-pair mapping. -/
def keysOf (m : List (String × String)) : List String :=
  m.map Prod.fst

/-- Lookup in the order-pair mapping. -/
def lookupKey (oid : String) : List (String × String) → Option String
  | [] => none
  | (k, v) :: rest => if k = oid then some v else lookupKey oid rest

/-- Embedding of the per-notification body of `_watch_orders_ws`
(`kucoin.py`, lines 170-187): wrong topic, missing id or non-terminal
status are skipped; otherwise `pop(oid, None)` removes the id, and a truthy
sibling is cancelled and its own entry removed.  `pop` with a default never
raises, so the step is a total function; the second component is the list
of cancel requests issued. -/
def watchStep (m : List (String × String)) (n : OrderNote) :
    List (String × String) × List String :=
  if n.topic ≠ "/contractMarket/tradeOrders" then (m, [])
  else if n.orderId.getD "" = "" ∨
      ¬ (terminalStatuses.map String.data).contains (lowerList (n.status.getD "").data) then
    (m, [])
  else
    match lookupKey (n.orderId.getD "") m with
    | none => (m, [])
    | some other =>
        if other = "" then (eraseKey (n.orderId.getD "") m, [])
        else (eraseKey other (eraseKey (n.orderId.getD "") m), [other])

/-- The watcher applied to a sequence of notifications, accumulating the
cancel requests it issues. -/
def runWatch (m : List (String × String)) :
    List OrderNote → List (String × String) × List String
  | [] => (m, [])
  | n :: rest =>
      let s1 := watchStep m n
      let s2 := runWatch s1.1 rest
      (s2.1, s1.2 ++ s2.2)

/-! ## Handler fan-out (`handler.py`) and configuration (`config.py`) -/

/-- An announcement payload as read by `handle_payload`. -/
structure Payload where
  title : String
  catalogId : Option ℤ
deriving DecidableEq

/-- The hard-coded category filter of `config.py`: `{48, 161}`. -/
def CATALOG_FILTER (c : ℤ) : Bool :=
  c == 48 || c == 161

/-- Category of a payload: `payload.get("catalogId") or -1` (Python `or`:
a missing id and the falsy id `0` both become `-1`). -/
def categoryOf (p : Payload) : ℤ :=
  match p.catalogId with
  | none => -1
  | some c => if c = 0 then -1 else c

/-- Per-direction position configuration (`config.py`). -/
structure PositionCfg where
  notional : ℚ
  leverage : Option ℤ
  tp_pct : ℚ
  sl_pct : ℚ

/-- Per-market configuration: one long and one short position config. -/
structure MarketCfg where
  long : PositionCfg
  short : PositionCfg

/-- Routing rule of `DECISION_CONFIG`: a side and the routed venue names. -/
structure DecisionCfg where
  side : String
  exchanges : List String

/-- The interface of a venue adapter as used by the handler. -/
structure Exch where
  name : String
  market : String
  symbolFromBase : String → String

/-- One `trade` call launched by the handler. -/
structure TradeCall where
  exName : String
  symbol : String
  side : String
  notional : ℚ
  tp_pct : ℚ
  sl_pct : ℚ
  leverage : ℤ
deriving DecidableEq

/-- Python `pos_cfg.leverage or 1`. -/
def leverageOr1 (o : Option ℤ) : ℤ :=
  match o with
  | some l => if l = 0 then 1 else l
  | none => 1

/-- Embedding of the dispatch section of `handle_payload` (`handler.py`,
lines 19-69): category filter, decision, routing rule lookup, and the
per-(base, venue) fan-out in base-major order; the result is the list of
`trade` calls launched. -/
def handlePayloadCalls (decisionConfig : String → Option DecisionCfg)
    (tradingConfig : String → String → Option MarketCfg)
    (p : Payload) (exchanges : List Exch) : List TradeCall :=
  if !CATALOG_FILTER (categoryOf p) then []
  else
    let r := decide_event_from_title p.title
    if r.1 = "none" ∨ r.2.isEmpty then []
    else
      match decisionConfig r.1 with
      | none => []
      | some rule =>
          let side := if rule.side = "long" then "buy" else "sell"
          r.2.flatMap (fun base =>
            exchanges.filterMap (fun ex =>
              if ex.name ∈ rule.exchanges then
                match tradingConfig ex.name ex.market with
                | some cfg =>
                    let pc := if rule.side = "long" then cfg.long else cfg.short
                    some { exName := ex.name, symbol := ex.symbolFromBase base,
                           side := side, notional := pc.notional, tp_pct := pc.tp_pct,
                           sl_pct := pc.sl_pct, leverage := leverageOr1 pc.leverage }
                | none => none
              else none))

/-! ## Feed supervisor (`ws.py`) -/

/-- The announcement topic (`config.py`). -/
def TOPIC : String :=
  "com_announcement_en"

/-- The feed endpoint (`config.py`). -/
def BASE_WS : String :=
  "wss://api.binance.com/sapi/wss"

/-- Query string of `build_ws_url` for a given nonce and timestamp. -/
def wsQuery (rnd : String) (ts : ℕ) : String :=
  "random=" ++ rnd ++ "&topic=" ++ TOPIC ++ "&recvWindow=60000&timestamp=" ++ toString ts

/-- Embedding of `build_ws_url` (`ws.py`): the signed subscription URL; the
HMAC-SHA256 signature is abstracted as the function `sign` of the secret
and the query string. -/
def build_ws_url (sign : String → String → String) (secret : String)
    (rnd : String) (ts : ℕ) : String :=
  BASE_WS ++ "?" ++ wsQuery rnd ts ++ "&signature=" ++ sign secret (wsQuery rnd ts)

/-- One inbound frame as seen by the read loop: undecodable text, a decoded
envelope whose type is not `DATA`, or a decoded data payload. -/
inductive FeedMsg where
  | malformed : FeedMsg
  | wrongType : FeedMsg
  | data : Payload → FeedMsg

/-- The world of the feed supervisor: the fresh nonce and timestamp sampled
at each connection attempt, and the frames delivered by each connection
before it ends (by closure or transport error). -/
structure FeedWorld where
  nonce : ℕ → String
  ts : ℕ → ℕ
  session : ℕ → List FeedMsg

/-- Supervisor state: disconnected before the `i`-th connection attempt, or
connected with the remaining frames of the `i`-th connection. -/
inductive SupState where
  | disconnected : ℕ → SupState
  | connected : ℕ → List FeedMsg → SupState

/-- Observable effects of one supervisor step: payloads dispatched as
non-blocking tasks, the delay slept, and the URL opened if a connection was
established. -/
structure SupObs where
  dispatched : List Payload
  delay : ℕ
  urlOpened : Option String
deriving DecidableEq

/-- Embedding of one step of the `run_ws` loop (`ws.py`, lines 21-54):
a disconnected supervisor builds a fresh signed URL from the nonce and
timestamp of this attempt and connects; a connected supervisor reads one
frame, dispatching it if it decodes as a `DATA` envelope and dropping it
otherwise (the per-message `except` swallows decode errors without leaving
the read loop); an ended stream sleeps the fixed 1-unit delay and returns
to the disconnected state of the next attempt.  The step is total: there is
no terminal state. -/
def supStep (sign : String → String → String) (secret : String) (w : FeedWorld) :
    SupState → SupState × SupObs
  | SupState.disconnected i =>
      (SupState.connected i (w.session i),
        ⟨[], 0, some (build_ws_url sign secret (w.nonce i) (w.ts i))⟩)
  | SupState.connected i [] =>
      (SupState.disconnected (i + 1), ⟨[], 1, none⟩)
  | SupState.connected i (m :: rest) =>
      (SupState.connected i rest,
        ⟨match m with
          | FeedMsg.data p => [p]
          | _ => [], 0, none⟩)

/-- Iterated supervisor steps. -/
def supRun (sign : String → String → String) (secret : String) (w : FeedWorld) :
    SupState → ℕ → SupState
  | s, 0 => s
  | s, k + 1 => supRun sign secret w (supStep sign secret w s).1 k

/-- Observation emitted by the step taken after `k` steps from `s`. -/
def supObsAt (sign : String → String → String) (secret : String) (w : FeedWorld)
    (s : SupState) (k : ℕ) : SupObs :=
  (supStep sign secret w (supRun sign secret w s k)).2

/-! ## Helper lemmas -/

theorem round_up_ge {px tick : ℚ} (ht : 0 < tick) (hp : 0 ≤ px) :
    px ≤ round_up_to_tick px tick := by
  unfold round_up_to_tick awayQ
  rw [if_neg (not_le.mpr ht), if_pos (div_nonneg hp ht.le)]
  have h := Int.le_ceil (px / tick)
  calc px = px / tick * tick := by field_simp
    _ ≤ (⌈px / tick⌉ : ℚ) * tick := by
        exact mul_le_mul_of_nonneg_right h ht.le

theorem round_down_le {px tick : ℚ} (ht : 0 < tick) (hp : 0 ≤ px) :
    round_down_to_tick px tick ≤ px := by
  unfold round_down_to_tick truncQ
  rw [if_neg (not_le.mpr ht), if_pos (div_nonneg hp ht.le)]
  have h := Int.floor_le (px / tick)
  calc (⌊px / tick⌋ : ℚ) * tick ≤ px / tick * tick := by
        exact mul_le_mul_of_nonneg_right h ht.le
    _ = px := by field_simp

theorem round_down_nonpos {px tick : ℚ} (ht : 0 < tick) (hp : px < 0) :
    round_down_to_tick px tick ≤ 0 := by
  unfold round_down_to_tick truncQ
  have hd : px / tick < 0 := div_neg_of_neg_of_pos hp ht
  rw [if_neg (not_le.mpr ht), if_neg (not_le.mpr hd)]
  have h : (⌈px / tick⌉ : ℤ) ≤ 0 := Int.ceil_le.mpr (by exact_mod_cast hd.le)
  have h2 : ((⌈px / tick⌉ : ℤ) : ℚ) ≤ 0 := by exact_mod_cast h
  exact mul_nonpos_of_nonpos_of_nonneg h2 ht.le

/-- A rounded-down level is always strictly below a positive reference when
its target is below the reference. -/
theorem round_down_lt_ref {x tick ref : ℚ} (ht : 0 < tick) (hr : 0 < ref)
    (hx : x < ref) : round_down_to_tick x tick < ref := by
  rcases le_or_lt 0 x with h0 | h0
  · exact lt_of_le_of_lt (round_down_le ht h0) hx
  · exact lt_of_le_of_lt (round_down_nonpos ht h0) hr

/-! ## C1: tick-gap rounding law -/

/-- C1, counterexample: with reference price 100, tick size 1, and
`minTicksGap = 2`, a long entry with 0.5 percent levels yields TP = 101 and
SL = 99, which violate the claimed bounds `TP ≥ ref + gap × tick = 102` and
`SL ≤ ref − gap × tick = 98`: the code re-rounds only when the rounded level
fails to clear the reference itself, not the gap. -/
theorem C1_counterexample :
    computeTpSlPrices 100 "buy" (1 / 2) (1 / 2) 1 2 = Except.ok (101, 99) ∧
    ¬ ((100 : ℚ) + 1 * (2 : ℤ) ≤ 101) ∧ ¬ ((99 : ℚ) ≤ 100 - 1 * (2 : ℤ)) := by
  have hbuy : lowerList "buy".data = "buy".data := by decide
  have htp : round_up_to_tick (100 * (1 + (1 / 2 : ℚ) / 100)) 1 = 101 := by
    unfold round_up_to_tick awayQ
    rw [if_neg (by norm_num), show (100 * (1 + (1 / 2 : ℚ) / 100)) / 1 = 201 / 2 by norm_num,
      if_pos (by norm_num), show ⌈(201 / 2 : ℚ)⌉ = 101 by rw [Int.ceil_eq_iff]; norm_num]
    norm_num
  have hsl : round_down_to_tick (100 * (1 - (1 / 2 : ℚ) / 100)) 1 = 99 := by
    unfold round_down_to_tick truncQ
    rw [if_neg (by norm_num), show (100 * (1 - (1 / 2 : ℚ) / 100)) / 1 = 199 / 2 by norm_num,
      if_pos (by norm_num), show ⌊(199 / 2 : ℚ)⌋ = 99 by norm_num]
    norm_num
  refine ⟨?_, by norm_num, by norm_num⟩
  simp only [computeTpSlPrices, calc_raw_tp_sl, if_pos hbuy, htp, hsl]
  norm_num

/-- C1, amended: the computed TP/SL prices are strictly beyond the reference
price on the protective side (long: TP above, SL below; inverse for short);
the `minTicksGap × tickSize` separation is guaranteed only when the
initially rounded level fails to clear the reference, in which case the
re-rounded level is at least that far beyond it (for the downward side
provided the gap does not exceed the reference).  The split-order KuCoin
path and the MEXC path compute strictly protective levels as well, given
positive percentages. -/
theorem C1_rounding_amended (ref tick tp_pct sl_pct : ℚ) (gap : ℤ)
    (href : 0 < ref) (htick : 0 < tick) (hgap : 1 ≤ gap) :
    (∃ tp sl, computeTpSlPrices ref "buy" tp_pct sl_pct tick gap = Except.ok (tp, sl) ∧
      ref < tp ∧ sl < ref ∧
      (round_up_to_tick (ref * (1 + tp_pct / 100)) tick ≤ ref → ref + tick * gap ≤ tp) ∧
      (ref ≤ round_down_to_tick (ref * (1 - sl_pct / 100)) tick → tick * gap ≤ ref →
        sl ≤ ref - tick * gap)) ∧
    (∃ tp sl, computeTpSlPrices ref "sell" tp_pct sl_pct tick gap = Except.ok (tp, sl) ∧
      tp < ref ∧ ref < sl ∧
      (ref ≤ round_down_to_tick (ref * (1 - tp_pct / 100)) tick → tick * gap ≤ ref →
        tp ≤ ref - tick * gap) ∧
      (round_up_to_tick (ref * (1 + sl_pct / 100)) tick ≤ ref → ref + tick * gap ≤ sl)) ∧
    (0 < tp_pct → 0 < sl_pct →
      (∃ tp sl, kucoinTpSl ref "buy" tp_pct sl_pct tick = Except.ok (tp, sl) ∧
        ref < tp ∧ sl < ref) ∧
      (∃ tp sl, kucoinTpSl ref "sell" tp_pct sl_pct tick = Except.ok (tp, sl) ∧
        tp < ref ∧ ref < sl) ∧
      (∃ tp sl, mexc_calc_tp_sl ref "buy" tp_pct sl_pct = Except.ok (tp, sl) ∧
        ref < tp ∧ sl < ref) ∧
      (∃ tp sl, mexc_calc_tp_sl ref "sell" tp_pct sl_pct = Except.ok (tp, sl) ∧
        tp < ref ∧ ref < sl)) := by
  have hbuy : lowerList "buy".data = "buy".data := by decide
  have hsell1 : ¬ lowerList "sell".data = "buy".data := by decide
  have hsell2 : lowerList "sell".data = "sell".data := by decide
  have hgq : (1 : ℚ) ≤ (gap : ℚ) := by exact_mod_cast hgap
  have hpos : 0 < tick * gap := mul_pos htick (lt_of_lt_of_le one_pos hgq)
  have hupgap : ref + tick * gap ≤ round_up_to_tick (ref + tick * gap) tick :=
    round_up_ge htick (by linarith)
  have hrefgap : ref < round_up_to_tick (ref + tick * gap) tick := by linarith
  refine ⟨?_, ?_, ?_⟩
  · simp only [computeTpSlPrices, calc_raw_tp_sl, if_pos hbuy]
    refine ⟨_, _, rfl, ?_, ?_, ?_, ?_⟩
    · by_cases h : round_up_to_tick (ref * (1 + tp_pct / 100)) tick ≤ ref
      · rw [if_pos h]; exact hrefgap
      · rw [if_neg h]; exact not_le.mp h
    · by_cases h : ref ≤ round_down_to_tick (ref * (1 - sl_pct / 100)) tick
      · rw [if_pos h]; exact round_down_lt_ref htick href (by linarith)
      · rw [if_neg h]; exact not_le.mp h
    · intro h; rw [if_pos h]; exact hupgap
    · intro h hle; rw [if_pos h]
      exact round_down_le htick (by linarith)
  · simp only [computeTpSlPrices, calc_raw_tp_sl, if_neg hsell1, if_pos hsell2]
    refine ⟨_, _, rfl, ?_, ?_, ?_, ?_⟩
    · by_cases h : ref ≤ round_down_to_tick (ref * (1 - tp_pct / 100)) tick
      · rw [if_pos h]; exact round_down_lt_ref htick href (by linarith)
      · rw [if_neg h]; exact not_le.mp h
    · by_cases h : round_up_to_tick (ref * (1 + sl_pct / 100)) tick ≤ ref
      · rw [if_pos h]; exact hrefgap
      · rw [if_neg h]; exact not_le.mp h
    · intro h hle; rw [if_pos h]
      exact round_down_le htick (by linarith)
    · intro h; rw [if_pos h]; exact hupgap
  · intro htp hsl
    have h1 : ref < ref * (1 + tp_pct / 100) := by nlinarith
    have h2 : ref * (1 - sl_pct / 100) < ref := by nlinarith
    have h3 : ref * (1 - tp_pct / 100) < ref := by nlinarith
    have h4 : ref < ref * (1 + sl_pct / 100) := by nlinarith
    refine ⟨?_, ?_, ?_, ?_⟩
    · simp only [kucoinTpSl, calc_raw_tp_sl, if_pos hbuy]
      exact ⟨_, _, rfl, lt_of_lt_of_le h1 (round_up_ge htick (by linarith)),
        round_down_lt_ref htick href h2⟩
    · simp only [kucoinTpSl, calc_raw_tp_sl, if_neg hsell1, if_pos hsell2]
      exact ⟨_, _, rfl, round_down_lt_ref htick href h3,
        lt_of_lt_of_le h4 (round_up_ge htick (by linarith))⟩
    · simp only [mexc_calc_tp_sl, calc_raw_tp_sl, if_pos hbuy]
      exact ⟨_, _, rfl, h1, h2⟩
    · simp only [mexc_calc_tp_sl, calc_raw_tp_sl, if_neg hsell1, if_pos hsell2]
      exact ⟨_, _, rfl, h3, h4⟩

/-- Witness for the amended C1 theorem at reference 100, tick 1, gap 1 and
1-percent levels. -/
theorem C1_rounding_amended_witness :
    ∃ tp sl, computeTpSlPrices 100 "buy" 1 1 1 1 = Except.ok (tp, sl) ∧
      100 < tp ∧ sl < 100 := by
  obtain ⟨⟨tp, sl, heq, h1, h2, _, _⟩, -, -⟩ :=
    C1_rounding_amended 100 1 1 1 1 (by norm_num) (by norm_num) (by norm_num)
  exact ⟨tp, sl, heq, h1, h2⟩

/-! ## C7: notional-to-lot fallback -/

/-- C7: the fallback fires exactly on quantity/parameter rejections of the
first submission: a success is returned as is, a non-quantity rejection
propagates unchanged with no retry, and a quantity rejection recomputes the
size as `⌊notional / (referencePrice × multiplier)⌋`, failing with the
explicit sizing message below the minimum lot size and resubmitting with
the integer size otherwise. -/
theorem C7_notional_lot_fallback (submit : Option ℤ → Except String String)
    (ref lastPrice mult notional : ℚ) (lotmin : ℤ) (symbol : String) :
    (∀ r, submit none = Except.ok r →
      place_fallback submit ref lastPrice mult notional lotmin symbol = Except.ok r) ∧
    (∀ e, submit none = Except.error e → quantityErr e = false →
      place_fallback submit ref lastPrice mult notional lotmin symbol = Except.error e) ∧
    (∀ e, submit none = Except.error e → quantityErr e = true → ref ≠ 0 → 0 < mult →
      (⌊notional / (ref * mult)⌋ < lotmin →
        place_fallback submit ref lastPrice mult notional lotmin symbol =
          Except.error ("Notional $" ++ toString notional ++ " maps to " ++
            toString (⌊notional / (ref * mult)⌋ : ℤ) ++ " lot(s) < min " ++ toString lotmin ++
            " for " ++ symbol ++ " (px=" ++ toString ref ++ ", multiplier=" ++
            toString mult ++ ")")) ∧
      (lotmin ≤ ⌊notional / (ref * mult)⌋ →
        place_fallback submit ref lastPrice mult notional lotmin symbol =
          submit (some ⌊notional / (ref * mult)⌋))) := by
  refine ⟨?_, ?_, ?_⟩
  · intro r h
    simp only [place_fallback, h]
  · intro e h hq
    simp only [place_fallback, h, hq, Bool.not_false, if_pos]
  · intro e h hq href hmult
    have hm : ¬ mult ≤ 0 := not_le.mpr hmult
    constructor
    · intro hlt
      simp only [place_fallback, h, hq, Bool.not_true, Bool.false_eq_true, if_false,
        if_neg href, if_neg hm, if_pos hlt]
    · intro hge
      simp only [place_fallback, h, hq, Bool.not_true, Bool.false_eq_true, if_false,
        if_neg href, if_neg hm, if_neg (not_lt.mpr hge)]

/-- Witness for C7: a quantity rejection of the notional attempt, reference
price 10, multiplier 1, notional 25 and minimum lot 1 resubmits with the
integer size and succeeds. -/
theorem C7_notional_lot_fallback_witness :
    place_fallback
      (fun o => match o with
        | none => Except.error "400 invalid valueQty"
        | some _ => Except.ok "resubmitted") 10 0 1 25 1 "FOOUSDTM" = Except.ok "resubmitted" := by
  have h := ((C7_notional_lot_fallback
      (fun o => match o with
        | none => Except.error "400 invalid valueQty"
        | some _ => Except.ok "resubmitted") 10 0 1 25 1 "FOOUSDTM").2.2
    "400 invalid valueQty" rfl (by decide) (by norm_num) (by norm_num)).2
  rw [h (by norm_num)]

/-! ## C6: partial-execution classification -/

/-- The bounded poll returns a zero entry price when every polled position
lacks one. -/
theorem pollLoop_fst_zero (ps : ℕ → KcPos) :
    ∀ (fuel i : ℕ), (∀ j, j < fuel → refOf (ps (i + j)) = 0) →
      (pollLoop ps i fuel).1 = 0
  | 0, i, _ => rfl
  | 1, i, h => by simpa using h 0 (by norm_num)
  | fuel + 2, i, h => by
      have h0 : refOf (ps i) = 0 := by simpa using h 0 (by omega)
      have ih := pollLoop_fst_zero ps (fuel + 1) (i + 1)
        (fun j hj => by
          have := h (j + 1) (by omega)
          simpa [Nat.add_assoc, Nat.add_comm 1 j] using this)
      simp only [pollLoop, h0, if_pos]
      exact ih

/-- A pattern occurring at the head of a list is found. -/
theorem containsSub_here (pat b : List Char) : containsSub pat (pat ++ b) = true := by
  cases pat with
  | nil => cases b <;> simp [containsSub]
  | cons c rest =>
      simp only [containsSub, List.cons_append, Bool.or_eq_true, beq_iff_eq]
      left
      exact List.take_left (c :: rest) b

/-- Substring search succeeds on any left extension. -/
theorem containsSub_append_right (pat x l : List Char) (h : containsSub pat l = true) :
    containsSub pat (x ++ l) = true := by
  induction x with
  | nil => simpa using h
  | cons c rest ih =>
      simp only [containsSub, List.cons_append, Bool.or_eq_true]
      right
      exact ih

/-- A pattern inside a concatenation is found. -/
theorem containsSub_sandwich (pat a b : List Char) :
    containsSub pat (a ++ (pat ++ b)) = true :=
  containsSub_append_right pat a _ (containsSub_here pat b)

/-- C6: on the split-order venue, an entry rejection propagates as the
rejection itself and nothing further is attempted, while a successful entry
whose position poll is exhausted (or yields no position size) fails with its
own explicit message; these partial-execution messages coincide with no
venue rejection string (every `_req` rejection embeds `Body=` or the
`KuCoin API error` prefix), and the handler report embeds the error text
verbatim, so the partial-execution outcome is reported distinctly from a
plain rejection. -/
theorem C6_partial_execution_classification (o : KcOracle) (side : String)
    (tp_pct sl_pct : ℚ) (pairs : List (String × String)) :
    (∀ e t, o.contractTick = Except.ok t → o.entry = Except.error e →
      kucoinTrade o side tp_pct sl_pct pairs = Except.error e) ∧
    (∀ t, o.contractTick = Except.ok t → o.entry = Except.ok () →
      (∀ i, i < 60 → refOf (o.positions i) = 0) →
      kucoinTrade o side tp_pct sl_pct pairs =
        Except.error "entry price not found for position") ∧
    (∀ t, o.contractTick = Except.ok t → o.entry = Except.ok () →
      refOf (o.positions 0) ≠ 0 → qtyOf (o.positions 0) = 0 →
      lowerList side.data = "buy".data →
      kucoinTrade o side tp_pct sl_pct pairs = Except.error "position size not found") ∧
    (∀ status reason body,
      reqErrMsg status reason body ≠ "entry price not found for position" ∧
      reqErrMsg status reason body ≠ "position size not found") ∧
    (∀ code msg,
      kcApiErrMsg code msg ≠ "entry price not found for position" ∧
      kcApiErrMsg code msg ≠ "position size not found") ∧
    (∀ sideU symbol exName err rest,
      containsSub err.data (handlerFailureMsg sideU symbol exName err rest).data = true) := by
  refine ⟨?_, ?_, ?_, ?_, ?_, ?_⟩
  · intro e t hct he
    simp only [kucoinTrade, hct, he]
  · intro t hct he hz
    have hp : (pollLoop o.positions 0 60).1 = 0 :=
      pollLoop_fst_zero o.positions 60 0 (fun j hj => by simpa using hz j hj)
    simp only [kucoinTrade, hct, he, hp, if_pos]
  · intro t hct he hnz hq hbuy
    have hp : pollLoop o.positions 0 60 = (refOf (o.positions 0), o.positions 0) := by
      rw [show (60 : ℕ) = 58 + 2 from rfl]
      simp only [pollLoop, if_neg hnz]
    simp only [kucoinTrade, hct, he, hp, if_neg hnz, kucoinTpSl, calc_raw_tp_sl,
      if_pos hbuy, hq, if_pos]
  · intro status reason body
    constructor
    · intro h
      have hc : containsSub "Body=".data (reqErrMsg status reason body).data = true := by
        have : (reqErrMsg status reason body).data =
            (toString status ++ " " ++ reason ++ ". ").data ++
              ("Body=".data ++ body.data) := by
          simp [reqErrMsg, String.data_append]
        rw [this]
        exact containsSub_sandwich _ _ _
      rw [h] at hc
      exact absurd hc (by decide)
    · intro h
      have hc : containsSub "Body=".data (reqErrMsg status reason body).data = true := by
        have : (reqErrMsg status reason body).data =
            (toString status ++ " " ++ reason ++ ". ").data ++
              ("Body=".data ++ body.data) := by
          simp [reqErrMsg, String.data_append]
        rw [this]
        exact containsSub_sandwich _ _ _
      rw [h] at hc
      exact absurd hc (by decide)
  · intro code msg
    constructor
    · intro h
      have hc : containsSub "KuCoin API error ".data (kcApiErrMsg code msg).data = true := by
        have : (kcApiErrMsg code msg).data =
            [] ++ ("KuCoin API error ".data ++ (code ++ ": " ++ msg).data) := by
          simp [kcApiErrMsg, String.data_append]
        rw [this]
        exact containsSub_sandwich _ _ _
      rw [h] at hc
      exact absurd hc (by decide)
    · intro h
      have hc : containsSub "KuCoin API error ".data (kcApiErrMsg code msg).data = true := by
        have : (kcApiErrMsg code msg).data =
            [] ++ ("KuCoin API error ".data ++ (code ++ ": " ++ msg).data) := by
          simp [kcApiErrMsg, String.data_append]
        rw [this]
        exact containsSub_sandwich _ _ _
      rw [h] at hc
      exact absurd hc (by decide)
  · intro sideU symbol exName err rest
    have : (handlerFailureMsg sideU symbol exName err rest).data =
        ("❌ " ++ sideU ++ " " ++ symbol ++ " on " ++ exName ++ " failed\n").data ++
          (err.data ++ ("\n" ++ rest).data) := by
      simp [handlerFailureMsg, String.data_append]
    rw [this]
    exact containsSub_sandwich _ _ _

/-! ## C2: order-pair invariant of the fill watcher -/

/-- Erasing a key only removes keys. -/
theorem eraseKey_keys_subset (a : String) (m : List (String × String)) :
    ∀ x, x ∈ keysOf (eraseKey a m) → x ∈ keysOf m := by
  intro x hx
  simp only [keysOf, eraseKey, List.mem_map] at hx ⊢
  obtain ⟨p, hp, hpx⟩ := hx
  exact ⟨p, (List.mem_filter.mp hp).1, hpx⟩

/-- An erased key is gone. -/
theorem not_mem_keys_eraseKey (a : String) (m : List (String × String)) :
    a ∉ keysOf (eraseKey a m) := by
  intro hx
  simp only [keysOf, eraseKey, List.mem_map] at hx
  obtain ⟨p, hp, hpx⟩ := hx
  have := (List.mem_filter.mp hp).2
  simp [hpx] at this

/-- Lookup of an absent key fails. -/
theorem lookupKey_eq_none_of_not_mem {oid : String} {m : List (String × String)}
    (h : oid ∉ keysOf m) : lookupKey oid m = none := by
  induction m with
  | nil => rfl
  | cons p rest ih =>
      obtain ⟨k, v⟩ := p
      simp only [keysOf, List.map_cons, List.mem_cons, not_or] at h
      have hk : ¬ k = oid := fun he => h.1 he.symm
      simp only [lookupKey]
      rw [if_neg hk]
      exact ih (by simpa [keysOf] using h.2)

/-- A watcher step never adds keys to the pair mapping. -/
theorem watchStep_keys_subset (m : List (String × String)) (n : OrderNote) :
    ∀ x, x ∈ keysOf (watchStep m n).1 → x ∈ keysOf m := by
  intro x
  unfold watchStep
  by_cases h1 : n.topic ≠ "/contractMarket/tradeOrders"
  · rw [if_pos h1]; exact id
  · rw [if_neg h1]
    by_cases h2 : n.orderId.getD "" = "" ∨
        ¬ (terminalStatuses.map String.data).contains (lowerList (n.status.getD "").data)
    · rw [if_pos h2]; exact id
    · rw [if_neg h2]
      cases hl : lookupKey (n.orderId.getD "") m with
      | none => exact id
      | some other =>
          dsimp only
          by_cases h3 : other = ""
          · rw [if_pos h3]
            exact eraseKey_keys_subset _ m x
          · rw [if_neg h3]
            exact fun hx =>
              eraseKey_keys_subset _ m x (eraseKey_keys_subset other _ x hx)

/-- A watcher run never adds keys to the pair mapping. -/
theorem runWatch_keys_subset (ns : List OrderNote) :
    ∀ m, ∀ x, x ∈ keysOf (runWatch m ns).1 → x ∈ keysOf m := by
  induction ns with
  | nil => intro m x hx; simpa [runWatch] using hx
  | cons n rest ih =>
      intro m x hx
      simp only [runWatch] at hx
      exact watchStep_keys_subset m n x (ih (watchStep m n).1 x hx)

/-- C2: a terminal notification for an id not in the pair mapping is a
no-op (the total `pop` raises nothing and issues no cancel); processing a
mapped id issues exactly the sibling's cancel and leaves neither the id nor
the sibling in the mapping; keys only ever shrink across a run, and an
absent id stays absent, so each id is removed at most once over any
sequence of notifications. -/
theorem C2_orderpair_invariant (m : List (String × String)) (n : OrderNote)
    (oid sib : String) (ns : List OrderNote) :
    (n.orderId = some oid → oid ∉ keysOf m → watchStep m n = (m, [])) ∧
    (n.topic = "/contractMarket/tradeOrders" → n.orderId = some oid → oid ≠ "" →
      (terminalStatuses.map String.data).contains (lowerList (n.status.getD "").data) = true →
      lookupKey oid m = some sib → sib ≠ "" →
      (watchStep m n).2 = [sib] ∧
      oid ∉ keysOf (watchStep m n).1 ∧ sib ∉ keysOf (watchStep m n).1) ∧
    (∀ x, x ∈ keysOf (runWatch m ns).1 → x ∈ keysOf m) ∧
    (oid ∉ keysOf m → oid ∉ keysOf (runWatch m ns).1) := by
  refine ⟨?_, ?_, runWatch_keys_subset ns m, ?_⟩
  · intro hid hmem
    unfold watchStep
    by_cases h1 : n.topic ≠ "/contractMarket/tradeOrders"
    · rw [if_pos h1]
    · rw [if_neg h1]
      by_cases h2 : n.orderId.getD "" = "" ∨
          ¬ (terminalStatuses.map String.data).contains (lowerList (n.status.getD "").data)
      · rw [if_pos h2]
      · rw [if_neg h2]
        have : lookupKey (n.orderId.getD "") m = none := by
          rw [hid]
          exact lookupKey_eq_none_of_not_mem hmem
        rw [this]
  · intro htopic hid hne hterm hlk hsib
    have h1 : ¬ n.topic ≠ "/contractMarket/tradeOrders" := by simp [htopic]
    have h2 : ¬ (n.orderId.getD "" = "" ∨
        ¬ (terminalStatuses.map String.data).contains (lowerList (n.status.getD "").data)) := by
      rw [hid]
      simp only [Option.getD_some]
      exact not_or.mpr ⟨hne, fun hc => hc hterm⟩
    have hstep : watchStep m n = (eraseKey sib (eraseKey oid m), [sib]) := by
      unfold watchStep
      rw [if_neg h1, if_neg h2, hid]
      simp only [Option.getD_some]
      rw [hlk]
      dsimp only
      rw [if_neg hsib]
    rw [hstep]
    refine ⟨rfl, ?_, not_mem_keys_eraseKey sib _⟩
    intro hx
    exact not_mem_keys_eraseKey oid m (eraseKey_keys_subset sib _ oid hx)
  · intro hmem hx
    exact hmem (runWatch_keys_subset ns m oid hx)

/-- Witness for C2: on the mapping holding the symmetric pair (a, b), a
terminal `done` notification for `a` cancels exactly `b` and empties the
mapping, and a notification for an unknown id is a no-op. -/
theorem C2_orderpair_invariant_witness :
    (watchStep [("a", "b"), ("b", "a")]
        ⟨"/contractMarket/tradeOrders", some "a", some "done"⟩).2 = ["b"] ∧
    "a" ∉ keysOf (watchStep [("a", "b"), ("b", "a")]
        ⟨"/contractMarket/tradeOrders", some "a", some "done"⟩).1 ∧
    "b" ∉ keysOf (watchStep [("a", "b"), ("b", "a")]
        ⟨"/contractMarket/tradeOrders", some "a", some "done"⟩).1 ∧
    watchStep [("a", "b"), ("b", "a")]
        ⟨"/contractMarket/tradeOrders", some "z", some "done"⟩ =
      ([("a", "b"), ("b", "a")], []) := by
  refine ⟨?_, ?_, ?_, ?_⟩
  · exact ((C2_orderpair_invariant [("a", "b"), ("b", "a")]
      ⟨"/contractMarket/tradeOrders", some "a", some "done"⟩ "a" "b" []).2.1
      rfl rfl (by decide) (by decide) (by decide) (by decide)).1
  · exact ((C2_orderpair_invariant [("a", "b"), ("b", "a")]
      ⟨"/contractMarket/tradeOrders", some "a", some "done"⟩ "a" "b" []).2.1
      rfl rfl (by decide) (by decide) (by decide) (by decide)).2.1
  · exact ((C2_orderpair_invariant [("a", "b"), ("b", "a")]
      ⟨"/contractMarket/tradeOrders", some "a", some "done"⟩ "a" "b" []).2.1
      rfl rfl (by decide) (by decide) (by decide) (by decide)).2.2
  · exact (C2_orderpair_invariant [("a", "b"), ("b", "a")]
      ⟨"/contractMarket/tradeOrders", some "z", some "done"⟩ "z" "" []).1
      rfl (by decide)

/-- Witness for C6: an entry that fills while all 60 position polls return
an empty position yields the explicit partial-execution error. -/
theorem C6_partial_execution_witness :
    kucoinTrade ⟨Except.ok (some 1), Except.ok (), fun _ => {}, Except.ok none, Except.ok none⟩
      "buy" 1 1 [] = Except.error "entry price not found for position" :=
  (C6_partial_execution_classification
      ⟨Except.ok (some 1), Except.ok (), fun _ => {}, Except.ok none, Except.ok none⟩
      "buy" 1 1 []).2.1 (some 1) rfl rfl (fun _ _ => rfl)

/-! ## C10: the returned base list is sorted, duplicate-free and uppercase -/

theorem mem_insertBase {a x : String} : ∀ l, a ∈ insertBase x l ↔ a = x ∨ a ∈ l
  | [] => by simp [insertBase]
  | y :: rest => by
      simp only [insertBase]
      split_ifs with h1 h2
      · subst h1
        simp only [List.mem_cons]
        tauto
      · simp only [List.mem_cons]
      · simp only [List.mem_cons, mem_insertBase rest]
        tauto

theorem pairwise_insertBase {x : String} :
    ∀ {l}, l.Pairwise (· < ·) → (insertBase x l).Pairwise (· < ·)
  | [], _ => by simp [insertBase]
  | y :: rest, h => by
      rw [List.pairwise_cons] at h
      simp only [insertBase]
      split_ifs with h1 h2
      · exact List.pairwise_cons.mpr h
      · exact List.pairwise_cons.mpr
          ⟨fun a ha => by
            rcases List.mem_cons.mp ha with rfl | ha
            · exact h2
            · exact lt_trans h2 (h.1 a ha), List.pairwise_cons.mpr h⟩
      · have hyx : y < x := lt_of_le_of_ne (le_of_not_lt h2) (Ne.symm h1)
        exact List.pairwise_cons.mpr
          ⟨fun a ha => by
            rcases (mem_insertBase rest).mp ha with rfl | ha
            · exact hyx
            · exact h.1 a ha, pairwise_insertBase h.2⟩

/-- Folding a step that either keeps the accumulator or inserts preserves
strict sortedness. -/
theorem foldl_insert_pairwise {α : Type} (f : List String → α → List String) :
    ∀ (l : List α) (acc : List String),
      (∀ acc2 t, t ∈ l → f acc2 t = acc2 ∨ ∃ x, f acc2 t = insertBase x acc2) →
      acc.Pairwise (· < ·) → (l.foldl f acc).Pairwise (· < ·)
  | [], acc, _, hacc => hacc
  | t :: rest, acc, hf, hacc => by
      rw [List.foldl_cons]
      refine foldl_insert_pairwise f rest (f acc t)
        (fun acc2 u hu => hf acc2 u (List.mem_cons_of_mem t hu)) ?_
      rcases hf acc t (List.mem_cons_self t rest) with h | ⟨x, h⟩
      · rw [h]; exact hacc
      · rw [h]; exact pairwise_insertBase hacc

/-- Folding a step that either keeps the accumulator or inserts a string
satisfying `Q` preserves `Q` over all members. -/
theorem foldl_insert_prop {α : Type} (Q : String → Prop) (f : List String → α → List String) :
    ∀ (l : List α) (acc : List String),
      (∀ acc2 t, t ∈ l → f acc2 t = acc2 ∨ ∃ x, Q x ∧ f acc2 t = insertBase x acc2) →
      (∀ s ∈ acc, Q s) → ∀ s ∈ l.foldl f acc, Q s
  | [], acc, _, hacc => hacc
  | t :: rest, acc, hf, hacc => by
      rw [List.foldl_cons]
      refine foldl_insert_prop Q f rest (f acc t)
        (fun acc2 u hu => hf acc2 u (List.mem_cons_of_mem t hu)) ?_
      rcases hf acc t (List.mem_cons_self t rest) with h | ⟨x, hQ, h⟩
      · rw [h]; exact hacc
      · rw [h]
        intro s hs
        rcases (mem_insertBase acc).mp hs with rfl | hs
        · exact hQ
        · exact hacc s hs

/-- Members surviving a fold of insertions. -/
theorem mem_foldl_insert {α : Type} (f : List String → α → List String) :
    ∀ (l : List α) (acc : List String),
      (∀ acc2 t, t ∈ l → f acc2 t = acc2 ∨ ∃ x, f acc2 t = insertBase x acc2) →
      ∀ s ∈ acc, s ∈ l.foldl f acc
  | [], _, _, _, hs => hs
  | t :: rest, acc, hf, s, hs => by
      rw [List.foldl_cons]
      refine mem_foldl_insert f rest (f acc t)
        (fun acc2 u hu => hf acc2 u (List.mem_cons_of_mem t hu)) s ?_
      rcases hf acc t (List.mem_cons_self t rest) with h | ⟨x, h⟩
      · rw [h]; exact hs
      · rw [h]; exact (mem_insertBase acc).mpr (Or.inr hs)

/-- An uppercase alphanumeric character is unchanged by `Char.toUpper`. -/
theorem toUpper_fixed {c : Char} (h : isUpperAlnum c = true) : Char.toUpper c = c := by
  unfold isUpperAlnum at h
  simp only [Bool.or_eq_true, Bool.and_eq_true, decide_eq_true_eq] at h
  unfold Char.toUpper
  rw [if_neg]
  simp only [Char.isLower, Bool.and_eq_true, decide_eq_true_eq, not_and]
  intro h1
  rcases h with ⟨_, hb⟩ | ⟨_, hb⟩
  · exact absurd (le_trans h1 (by exact hb)) (by decide)
  · exact absurd (le_trans h1 (by exact hb)) (by decide)

/-- Every token found by the parenthesis scan is uppercase alphanumeric. -/
theorem parenScan_tokens : ∀ (t : List Char), ∀ tok ∈ parenScan t, ∀ c ∈ tok, isUpperAlnum c = true
  | [] => by simp [parenScan]
  | c :: rest => by
      intro tok htok ch hch
      simp only [parenScan] at htok
      by_cases hc : c = '('
      · rw [if_pos hc] at htok
        by_cases hcond : 2 ≤ (rest.takeWhile isUpperAlnum).length ∧
            (rest.takeWhile isUpperAlnum).length ≤ 15 ∧
            (rest.drop (rest.takeWhile isUpperAlnum).length).head? = some ')'
        · rw [if_pos hcond] at htok
          rcases List.mem_cons.mp htok with rfl | htok
          · exact List.mem_takeWhile_imp hch
          · exact parenScan_tokens rest tok htok ch hch
        · rw [if_neg hcond] at htok
          exact parenScan_tokens rest tok htok ch hch
      · rw [if_neg hc] at htok
        exact parenScan_tokens rest tok htok ch hch

/-- Every token found by the USDT-pair scan is uppercase alphanumeric. -/
theorem usdtScan_tokens : ∀ (t : List Char) (prev : Bool),
    ∀ tok ∈ usdtScan prev t, ∀ c ∈ tok, isUpperAlnum c = true
  | [], _ => by simp [usdtScan]
  | c :: rest, prev => by
      intro tok htok ch hch
      simp only [usdtScan] at htok
      by_cases h1 : prev = false ∧ isUpperAlnum c = true
      · rw [if_pos h1] at htok
        by_cases hcond : 6 ≤ (c :: rest.takeWhile isUpperAlnum).length ∧
            (c :: rest.takeWhile isUpperAlnum).length ≤ 34 ∧
            (c :: rest.takeWhile isUpperAlnum).drop
              ((c :: rest.takeWhile isUpperAlnum).length - 4) = "USDT".data ∧
            boundaryAfter (rest.drop ((c :: rest.takeWhile isUpperAlnum).length - 1)) = true
        · rw [if_pos hcond] at htok
          rcases List.mem_cons.mp htok with rfl | htok
          · have hmem := List.take_subset _ _ hch
            rcases List.mem_cons.mp hmem with rfl | hmem
            · exact h1.2
            · exact List.mem_takeWhile_imp hmem
          · exact usdtScan_tokens rest (isWordChar c) tok htok ch hch
        · rw [if_neg hcond] at htok
          exact usdtScan_tokens rest (isWordChar c) tok htok ch hch
      · rw [if_neg h1] at htok
        exact usdtScan_tokens rest (isWordChar c) tok htok ch hch

/-- Invariants of the parenthesis fold. -/
theorem basesFromParentheses_inv (t : List Char) :
    (basesFromParentheses t).Pairwise (· < ·) ∧
    ∀ s ∈ basesFromParentheses t, ∀ c ∈ s.data, isUpperAlnum c = true := by
  unfold basesFromParentheses
  constructor
  · refine foldl_insert_pairwise _ _ _ ?_ List.Pairwise.nil
    intro acc2 tok _
    by_cases hd : isDateTok tok = true
    · left
      rw [if_pos hd]
    · right
      refine ⟨String.mk (tok.map Char.toUpper), ?_⟩
      rw [if_neg hd]
      by_cases hq : (tok.map Char.toUpper == "USDT".data || tok.map Char.toUpper == "USDC".data ||
          tok.map Char.toUpper == "USD".data || tok.map Char.toUpper == "FUTURES".data ||
          tok.map Char.toUpper == "ALPHA".data) = true
      · rw [if_pos hq]
      · rw [if_neg hq]
  · refine foldl_insert_prop (fun s => ∀ c ∈ s.data, isUpperAlnum c = true) _ _ _ ?_ (by simp)
    intro acc2 tok htok
    by_cases hd : isDateTok tok = true
    · left
      rw [if_pos hd]
    · right
      refine ⟨String.mk (tok.map Char.toUpper), ?_, ?_⟩
      · intro c hc
        rcases List.mem_map.mp hc with ⟨d, hd2, rfl⟩
        rw [toUpper_fixed (parenScan_tokens t tok htok d hd2)]
        exact parenScan_tokens t tok htok d hd2
      · rw [if_neg hd]
        by_cases hq : (tok.map Char.toUpper == "USDT".data ||
            tok.map Char.toUpper == "USDC".data ||
            tok.map Char.toUpper == "USD".data || tok.map Char.toUpper == "FUTURES".data ||
            tok.map Char.toUpper == "ALPHA".data) = true
        · rw [if_pos hq]
        · rw [if_neg hq]

/-- Invariants of the USDT-pair fold. -/
theorem basesFromUsdtPairs_inv (t : List Char) :
    (basesFromUsdtPairs t).Pairwise (· < ·) ∧
    ∀ s ∈ basesFromUsdtPairs t, ∀ c ∈ s.data, isUpperAlnum c = true := by
  unfold basesFromUsdtPairs
  constructor
  · refine foldl_insert_pairwise _ _ _ ?_ List.Pairwise.nil
    intro acc2 tok _
    exact Or.inr ⟨String.mk (tok.map Char.toUpper), rfl⟩
  · refine foldl_insert_prop (fun s => ∀ c ∈ s.data, isUpperAlnum c = true) _ _ _ ?_ (by simp)
    intro acc2 tok htok
    refine Or.inr ⟨String.mk (tok.map Char.toUpper), ?_, rfl⟩
    intro c hc
    rcases List.mem_map.mp hc with ⟨d, hd2, rfl⟩
    rw [toUpper_fixed (usdtScan_tokens t false tok htok d hd2)]
    exact usdtScan_tokens t false tok htok d hd2

/-- Invariants of the delist fold. -/
theorem basesFromDelist_inv (t : List Char) :
    (basesFromDelist t).Pairwise (· < ·) ∧
    ∀ s ∈ basesFromDelist t, ∀ c ∈ s.data, isUpperAlnum c = true := by
  unfold basesFromDelist
  cases findDelistAux t with
  | none => exact ⟨List.Pairwise.nil, by simp⟩
  | some seg =>
      constructor
      · refine foldl_insert_pairwise _ _ _ ?_ List.Pairwise.nil
        intro acc2 p _
        by_cases hcond : (2 ≤ ((stripWs p).map Char.toUpper).length ∧
            ((stripWs p).map Char.toUpper).length ≤ 15 ∧
            ((stripWs p).map Char.toUpper).all isUpperAlnum) ∧
            ¬((stripWs p).map Char.toUpper == "USDT".data ∨
              (stripWs p).map Char.toUpper == "USDC".data ∨
              (stripWs p).map Char.toUpper == "USD".data)
        · exact Or.inr ⟨String.mk ((stripWs p).map Char.toUpper), by rw [if_pos hcond]⟩
        · exact Or.inl (by rw [if_neg hcond])
      · refine foldl_insert_prop (fun s => ∀ c ∈ s.data, isUpperAlnum c = true) _ _ _ ?_
          (by simp)
        intro acc2 p _
        by_cases hcond : (2 ≤ ((stripWs p).map Char.toUpper).length ∧
            ((stripWs p).map Char.toUpper).length ≤ 15 ∧
            ((stripWs p).map Char.toUpper).all isUpperAlnum) ∧
            ¬((stripWs p).map Char.toUpper == "USDT".data ∨
              (stripWs p).map Char.toUpper == "USDC".data ∨
              (stripWs p).map Char.toUpper == "USD".data)
        · refine Or.inr ⟨String.mk ((stripWs p).map Char.toUpper), ?_, by rw [if_pos hcond]⟩
          intro c hc
          exact List.all_eq_true.mp hcond.1.2.2 c hc
        · exact Or.inl (by rw [if_neg hcond])

/-- Invariants of the union of the two listing extractions. -/
theorem unionBases_inv (t : List Char) :
    ((basesFromUsdtPairs t).foldl (fun acc x => insertBase x acc)
        (basesFromParentheses t)).Pairwise (· < ·) ∧
    ∀ s ∈ (basesFromUsdtPairs t).foldl (fun acc x => insertBase x acc)
        (basesFromParentheses t), ∀ c ∈ s.data, isUpperAlnum c = true := by
  constructor
  · refine foldl_insert_pairwise _ _ _ ?_ (basesFromParentheses_inv t).1
    intro acc2 x _
    exact Or.inr ⟨x, rfl⟩
  · refine foldl_insert_prop (fun s => ∀ c ∈ s.data, isUpperAlnum c = true) _ _ _ ?_
      (basesFromParentheses_inv t).2
    intro acc2 x hx
    exact Or.inr ⟨x, (basesFromUsdtPairs_inv t).2 x hx, rfl⟩

/-- C10: for every title, the returned base list is strictly sorted in
ascending order (hence duplicate-free) and every character of every base is
uppercase alphanumeric, so the list is independent of the order and
multiplicity of token occurrences in the title. -/
theorem C10_bases_sorted_nodup_upper (title : String) :
    (decide_trade_from_title title).2.Pairwise (· < ·) ∧
    (decide_trade_from_title title).2.Nodup ∧
    ∀ s ∈ (decide_trade_from_title title).2, ∀ c ∈ s.data, isUpperAlnum c = true := by
  have main : (decide_trade_from_title title).2.Pairwise (· < ·) ∧
      ∀ s ∈ (decide_trade_from_title title).2, ∀ c ∈ s.data, isUpperAlnum c = true := by
    unfold decide_trade_from_title
    by_cases h0 : title.data.isEmpty = true
    · rw [if_pos h0]
      exact ⟨List.Pairwise.nil, by simp⟩
    · rw [if_neg h0]
      by_cases h1 : (containsSub "will delist".data (lowerList title.data) ||
          hasDelistWord false (lowerList title.data)) = true
      · rw [if_pos h1]
        by_cases h2 : (basesFromDelist title.data).isEmpty = true
        · rw [if_pos h2]
          exact ⟨List.Pairwise.nil, by simp⟩
        · rw [if_neg h2]
          exact basesFromDelist_inv title.data
      · rw [if_neg h1]
        by_cases h3 : listingTrigger (lowerList title.data) = true
        · rw [if_pos h3]
          by_cases h4 : ((basesFromUsdtPairs title.data).foldl
              (fun acc x => insertBase x acc) (basesFromParentheses title.data)).isEmpty = true
          · rw [if_pos h4]
            exact ⟨List.Pairwise.nil, by simp⟩
          · rw [if_neg h4]
            exact unionBases_inv title.data
        · rw [if_neg h3]
          exact ⟨List.Pairwise.nil, by simp⟩
  exact ⟨main.1, main.1.imp (fun h => ne_of_lt h), main.2⟩

/-! ## Character classes and structural extraction lemmas -/

/-- An uppercase alphanumeric character is a word character. -/
theorem upperAlnum_word {c : Char} (h : isUpperAlnum c = true) : isWordChar c = true := by
  unfold isUpperAlnum at h
  unfold isWordChar isDig
  simp only [Bool.or_eq_true, Bool.and_eq_true, decide_eq_true_eq] at h ⊢
  rcases h with ⟨h1, h2⟩ | ⟨h1, h2⟩
  · left; left
    unfold Char.isAlpha Char.isUpper
    simp only [Bool.or_eq_true, Bool.and_eq_true, decide_eq_true_eq]
    left
    exact ⟨h1, h2⟩
  · left; right
    exact ⟨h1, h2⟩

/-- An uppercase alphanumeric character differs from any character outside
the class. -/
theorem upperAlnum_ne_of {c d : Char} (h : isUpperAlnum c = true)
    (hd : isUpperAlnum d = false) : c ≠ d := by
  intro he
  subst he
  rw [h] at hd
  simp at hd

/-- An uppercase alphanumeric character is not whitespace. -/
theorem upperAlnum_not_ws {c : Char} (h : isUpperAlnum c = true) : isWs c = false := by
  by_contra hw
  rw [Bool.not_eq_false] at hw
  unfold isWs at hw
  simp only [Bool.or_eq_true, decide_eq_true_eq] at hw
  rcases hw with ((((rfl | rfl) | rfl) | rfl) | rfl) | rfl <;> revert h <;> decide

/-- An uppercase alphanumeric character is neither a comma nor whitespace. -/
theorem upperAlnum_not_cs {c : Char} (h : isUpperAlnum c = true) : isCS c = false := by
  unfold isCS
  rw [upperAlnum_not_ws h]
  simp only [Bool.or_false, decide_eq_false_iff_not]
  exact upperAlnum_ne_of h (by decide)

/-- `takeWhile` passes over a prefix all of whose elements satisfy the
predicate. -/
theorem takeWhile_append_all {p : Char → Bool} (l r : List Char)
    (h : ∀ c ∈ l, p c = true) : (l ++ r).takeWhile p = l ++ r.takeWhile p := by
  induction l with
  | nil => simp
  | cons c rest ih =>
      simp only [List.cons_append, List.takeWhile_cons, h c (List.mem_cons_self c rest)]
      rw [ih (fun d hd => h d (List.mem_cons_of_mem c hd))]
      simp

/-- `takeWhile` stops exactly at the first failing element. -/
theorem takeWhile_all_stop {p : Char → Bool} (l : List Char) (d : Char) (r : List Char)
    (h : ∀ c ∈ l, p c = true) (hd : p d = false) : (l ++ d :: r).takeWhile p = l := by
  rw [takeWhile_append_all l (d :: r) h, List.takeWhile_cons, hd]
  simp

/-- `dropWhile` keeps a list none of whose elements satisfy the predicate. -/
theorem dropWhile_all_false {p : Char → Bool} (l : List Char)
    (h : ∀ c ∈ l, p c = false) : l.dropWhile p = l := by
  cases l with
  | nil => rfl
  | cons c rest => simp [List.dropWhile_cons, h c (List.mem_cons_self c rest)]

/-- `strip` is the identity on an alphanumeric token. -/
theorem stripWs_alnum (l : List Char) (h : ∀ c ∈ l, isUpperAlnum c = true) :
    stripWs l = l := by
  unfold stripWs
  rw [dropWhile_all_false l (fun c hc => upperAlnum_not_ws (h c hc)),
    dropWhile_all_false l.reverse
      (fun c hc => upperAlnum_not_ws (h c (List.mem_reverse.mp hc))),
    List.reverse_reverse]

/-- Uppercasing is the identity on an alphanumeric token. -/
theorem map_toUpper_alnum (l : List Char) (h : ∀ c ∈ l, isUpperAlnum c = true) :
    l.map Char.toUpper = l := by
  conv_rhs => rw [← List.map_id l]
  exact List.map_congr_left (fun c hc => toUpper_fixed (h c hc))

/-- The parenthesis scan finds a well-formed parenthesized token wherever it
occurs. -/
theorem parenScan_mem : ∀ (a : List Char) (tok b : List Char),
    (∀ c ∈ tok, isUpperAlnum c = true) → 2 ≤ tok.length → tok.length ≤ 15 →
    tok ∈ parenScan (a ++ '(' :: (tok ++ ')' :: b))
  | [], tok, b, hall, h2, h15 => by
      have ht : (tok ++ ')' :: b).takeWhile isUpperAlnum = tok :=
        takeWhile_all_stop tok ')' b hall (by decide)
      have hcond : 2 ≤ ((tok ++ ')' :: b).takeWhile isUpperAlnum).length ∧
          ((tok ++ ')' :: b).takeWhile isUpperAlnum).length ≤ 15 ∧
          ((tok ++ ')' :: b).drop
            ((tok ++ ')' :: b).takeWhile isUpperAlnum).length).head? = some ')' := by
        rw [ht]
        refine ⟨h2, h15, ?_⟩
        rw [List.drop_left tok (')' :: b)]
        rfl
      simp only [List.nil_append, parenScan, if_pos rfl]
      rw [if_pos hcond, ht]
      exact List.mem_cons_self tok _
  | c :: a, tok, b, hall, h2, h15 => by
      have ih := parenScan_mem a tok b hall h2 h15
      simp only [List.cons_append, parenScan]
      split_ifs <;> first | exact List.mem_cons_of_mem _ ih | exact ih

/-- The USDT-pair scan finds a well-formed `XUSDT` token wherever it occurs
between word boundaries. -/
theorem usdtScan_mem : ∀ (a : List Char) (prev : Bool) (X b : List Char),
    (a = [] → prev = false) → (∀ a2 d, a = a2 ++ [d] → isWordChar d = false) →
    (∀ c ∈ X, isUpperAlnum c = true) → 2 ≤ X.length → X.length ≤ 30 →
    (b = [] ∨ ∃ d b2, b = d :: b2 ∧ isWordChar d = false) →
    X ∈ usdtScan prev (a ++ (X ++ ('U' :: 'S' :: 'D' :: 'T' :: b)))
  | [], prev, X, b, hnil, _, hall, h2, h30, hb => by
      obtain ⟨x0, X', rfl⟩ : ∃ x0 X', X = x0 :: X' := by
        cases X with
        | nil => simp at h2
        | cons x0 X' => exact ⟨x0, X', rfl⟩
      have hx0 : isUpperAlnum x0 = true := hall x0 (List.mem_cons_self x0 X')
      have hX' : ∀ c ∈ X', isUpperAlnum c = true :=
        fun c hc => hall c (List.mem_cons_of_mem x0 hc)
      have hUS : ∀ c ∈ X' ++ ['U', 'S', 'D', 'T'], isUpperAlnum c = true := by
        intro c hc
        rcases List.mem_append.mp hc with hc | hc
        · exact hX' c hc
        · simp only [List.mem_cons, List.not_mem_nil, or_false] at hc
          rcases hc with rfl | rfl | rfl | rfl <;> decide
      have hrun : (X' ++ 'U' :: 'S' :: 'D' :: 'T' :: b).takeWhile isUpperAlnum =
          X' ++ ['U', 'S', 'D', 'T'] := by
        rcases hb with rfl | ⟨d, b2, rfl, hd⟩
        · rw [takeWhile_append_all X' _ hX']
          rfl
        · rw [show X' ++ 'U' :: 'S' :: 'D' :: 'T' :: d :: b2 =
              (X' ++ ['U', 'S', 'D', 'T']) ++ d :: b2 by simp]
          refine takeWhile_all_stop _ d b2 hUS ?_
          by_contra hcon
          rw [Bool.not_eq_false] at hcon
          rw [upperAlnum_word hcon] at hd
          simp at hd
      have hlen5 : (x0 :: (X' ++ ['U', 'S', 'D', 'T'])).length = X'.length + 5 := by
        simp [List.length_append]
      have h2' : 2 ≤ X'.length + 1 := by simpa using h2
      have h30' : X'.length + 1 ≤ 30 := by simpa using h30
      have hdrop : (x0 :: (X' ++ ['U', 'S', 'D', 'T'])).drop (X'.length + 1) = "USDT".data := by
        simp only [List.drop_succ_cons]
        rw [List.drop_left]
      have hbnd : boundaryAfter ((X' ++ 'U' :: 'S' :: 'D' :: 'T' :: b).drop
          (X'.length + 4)) = true := by
        rw [show X' ++ 'U' :: 'S' :: 'D' :: 'T' :: b = (X' ++ ['U', 'S', 'D', 'T']) ++ b by
          simp]
        rw [show X'.length + 4 = (X' ++ ['U', 'S', 'D', 'T']).length by
          simp [List.length_append]]
        rw [List.drop_left]
        rcases hb with rfl | ⟨d, b2, rfl, hd⟩
        · rfl
        · simp [boundaryAfter, hd]
      have htake : (x0 :: (X' ++ ['U', 'S', 'D', 'T'])).take (X'.length + 1) = x0 :: X' := by
        simp only [List.take_succ_cons]
        rw [List.take_left]
      simp only [List.nil_append, usdtScan, List.append_eq]
      rw [if_pos ⟨hnil rfl, hx0⟩, hrun, hlen5]
      rw [show X'.length + 5 - 4 = X'.length + 1 by omega,
        show X'.length + 5 - 1 = X'.length + 4 by omega]
      rw [if_pos ⟨by omega, by omega, hdrop, hbnd⟩, htake]
      exact List.mem_cons_self _ _
  | a0 :: a, prev, X, b, _, hlast, hall, h2, h30, hb => by
      have ihlast : ∀ a2 d, a = a2 ++ [d] → isWordChar d = false := by
        intro a2 d hd
        exact hlast (a0 :: a2) d (by rw [hd]; rfl)
      have ihnil : a = [] → isWordChar a0 = false := by
        intro ha
        exact hlast [] a0 (by rw [ha, List.nil_append])
      have ih := usdtScan_mem a (isWordChar a0) X b (fun ha => ihnil ha) ihlast hall h2 h30 hb
      simp only [List.cons_append, usdtScan]
      split_ifs <;> first | exact List.mem_cons_of_mem _ ih | exact ih

/-- Substring containment as an explicit decomposition. -/
theorem containsSub_iff (pat : List Char) :
    ∀ l, containsSub pat l = true ↔ ∃ x y, l = x ++ (pat ++ y)
  | [] => by
      simp only [containsSub, List.isEmpty_iff]
      constructor
      · intro h
        exact ⟨[], [], by simp [h]⟩
      · rintro ⟨x, y, hxy⟩
        have h := hxy.symm
        simp only [List.append_eq_nil] at h
        exact h.2.1
  | c :: rest => by
      simp only [containsSub, Bool.or_eq_true, beq_iff_eq]
      constructor
      · rintro (h | h)
        · refine ⟨[], (c :: rest).drop pat.length, ?_⟩
          rw [List.nil_append]
          conv_lhs => rw [← List.take_append_drop pat.length (c :: rest)]
          rw [h]
        · obtain ⟨x, y, hxy⟩ := (containsSub_iff pat rest).mp h
          exact ⟨c :: x, y, by rw [hxy]; rfl⟩
      · rintro ⟨x, y, hxy⟩
        cases x with
        | nil =>
            left
            rw [List.nil_append] at hxy
            rw [hxy, List.take_left]
        | cons d x' =>
            right
            rw [List.cons_append] at hxy
            injection hxy with _ hrest
            exact (containsSub_iff pat rest).mpr ⟨x', y, hrest⟩

/-- A standalone `delist` word is in particular a `delist` substring. -/
theorem hasDelistWord_sub : ∀ (t : List Char) (prev : Bool),
    hasDelistWord prev t = true → containsSub "delist".data t = true
  | [], _ => by simp [hasDelistWord]
  | c :: rest, prev => by
      intro h
      simp only [hasDelistWord, Bool.or_eq_true, Bool.and_eq_true, beq_iff_eq] at h
      rcases h with ⟨⟨_, htake⟩, _⟩ | h
      · simp only [containsSub, Bool.or_eq_true, beq_iff_eq]
        left
        exact htake
      · simp only [containsSub, Bool.or_eq_true]
        right
        exact hasDelistWord_sub rest (isWordChar c) h

/-- The delist regex search succeeds at the leftmost full match. -/
theorem findDelistAux_at : ∀ (t : List Char) (k : ℕ) (g : List Char),
    (∀ i, i < k → lowerList ((t.drop i).take 6) ≠ "delist".data) →
    lowerList ((t.drop k).take 6) = "delist".data →
    delistTail (t.drop (k + 6)) = some g →
    findDelistAux t = some g
  | [], k, g, _, h6, _ => by
      simp only [List.drop_nil, List.take_nil] at h6
      exact absurd h6 (by decide)
  | c :: rest, 0, g, _, h6, htail => by
      rw [List.drop_zero] at h6
      simp only [findDelistAux]
      rw [if_pos (by rw [beq_iff_eq]; exact h6)]
      rw [show ((c :: rest).drop (0 + 6)) = (c :: rest).drop 6 by norm_num] at htail
      rw [htail]
  | c :: rest, k + 1, g, hlt, h6, htail => by
      have h0 : lowerList ((c :: rest).take 6) ≠ "delist".data := by
        have := hlt 0 (Nat.succ_pos k)
        simpa using this
      simp only [findDelistAux]
      rw [if_neg (by simpa using h0)]
      refine findDelistAux_at rest k g (fun i hi => ?_) ?_ ?_
      · have := hlt (i + 1) (by omega)
        simpa [List.drop_succ_cons] using this
      · simpa [List.drop_succ_cons] using h6
      · rw [show rest.drop (k + 6) = (c :: rest).drop (k + 1 + 6) by
          rw [show k + 1 + 6 = (k + 6) + 1 by omega, List.drop_succ_cons]]
        exact htail

/-- `takeBeforeOn` passes over any character other than a space. -/
theorem takeBeforeOn_cons_ne {c : Char} (l : List Char) (hc : c ≠ ' ') :
    takeBeforeOn (c :: l) = c :: takeBeforeOn l := by
  simp only [takeBeforeOn]
  rw [if_neg]
  simp only [beq_iff_eq]
  intro h
  rw [List.take_succ_cons] at h
  injection h with h1 _
  exact hc h1

/-- `takeBeforeOn` passes over a space not followed by an `o`. -/
theorem takeBeforeOn_space_ne {b0 : Char} (l : List Char) (hb : b0 ≠ 'o') :
    takeBeforeOn (' ' :: b0 :: l) = ' ' :: takeBeforeOn (b0 :: l) := by
  simp only [takeBeforeOn]
  rw [if_neg]
  simp only [beq_iff_eq]
  intro h
  rw [List.take_succ_cons, List.take_succ_cons] at h
  injection h with _ h2
  injection h2 with h3 _
  exact hb h3

/-- `takeBeforeOn` passes over an alphanumeric prefix. -/
theorem takeBeforeOn_alnum (L : List Char) :
    ∀ (r : List Char), (∀ c ∈ L, isUpperAlnum c = true) →
      takeBeforeOn (L ++ r) = L ++ takeBeforeOn r := by
  induction L with
  | nil => intro r _; simp
  | cons c L ih =>
      intro r h
      rw [List.cons_append,
        takeBeforeOn_cons_ne _ (upperAlnum_ne_of (h c (List.mem_cons_self c L)) (by decide)),
        ih r (fun d hd => h d (List.mem_cons_of_mem c hd))]
      rfl

/-- No separator starts at an alphanumeric character. -/
theorem sepMatch_alnum {c : Char} (l : List Char) (h : isUpperAlnum c = true) :
    sepMatch (c :: l) = none := by
  unfold sepMatch
  have h1 : (c :: l).takeWhile isCS = [] := by
    rw [List.takeWhile_cons, upperAlnum_not_cs h]
    simp
  rw [h1]
  simp only [List.length_nil, b1find]
  rw [if_neg (upperAlnum_ne_of h (by decide)),
    if_neg (by rw [upperAlnum_not_ws h]; exact Bool.false_ne_true)]

/-- The separator at `", "` before an alphanumeric token has length 2. -/
theorem sepMatch_comma_space (b0 : Char) (B2' : List Char) (hb0 : isUpperAlnum b0 = true) :
    sepMatch (',' :: ' ' :: b0 :: B2') = some 2 := by
  have htw : (',' :: ' ' :: b0 :: B2').takeWhile isCS = [',', ' '] := by
    rw [List.takeWhile_cons]
    rw [if_pos (by decide)]
    rw [List.takeWhile_cons]
    rw [if_pos (by decide)]
    rw [List.takeWhile_cons, upperAlnum_not_cs hb0]
    simp
  have hws : (' ' :: b0 :: B2').takeWhile isWs = [' '] := by
    rw [List.takeWhile_cons]
    rw [if_pos (by decide)]
    rw [List.takeWhile_cons, upperAlnum_not_ws hb0]
    simp
  unfold sepMatch
  rw [htw]
  simp only [List.length_cons, List.length_nil, b1find]
  rw [if_neg (by
    simp only [beq_iff_eq]
    intro hand
    simp only [List.drop_succ_cons, List.drop_zero, List.take_succ_cons] at hand
    injection hand with ha _
    exact upperAlnum_ne_of hb0 (by decide) ha)]
  rw [if_neg (by
    simp only [beq_iff_eq]
    intro hand
    simp only [List.drop_succ_cons, List.drop_zero, List.take_succ_cons] at hand
    injection hand with ha _
    exact absurd ha (by decide))]
  simp [hws]

/-- `resplit` with exhausted input. -/
theorem resplitAux_nil_r : ∀ (fuel : ℕ) (acc : List Char),
    resplitAux fuel acc [] = [acc.reverse]
  | 0, _ => rfl
  | _ + 1, _ => rfl

/-- The splitting loop passes over an alphanumeric prefix. -/
theorem resplitAux_alnum : ∀ (L : List Char) (fuel : ℕ) (acc r : List Char),
    (∀ c ∈ L, isUpperAlnum c = true) →
    resplitAux (fuel + L.length) acc (L ++ r) = resplitAux fuel (L.reverse ++ acc) r
  | [], fuel, acc, r, _ => by simp
  | c :: L, fuel, acc, r, h => by
      have hc := h c (List.mem_cons_self c L)
      rw [show fuel + (c :: L).length = (fuel + L.length) + 1 by
        simp only [List.length_cons]
        omega]
      rw [List.cons_append]
      simp only [resplitAux, sepMatch_alnum _ hc]
      rw [resplitAux_alnum L fuel (c :: acc) r (fun d hd => h d (List.mem_cons_of_mem c hd))]
      simp [List.append_assoc]

/-- The splitting loop on trailing alphanumeric input yields one piece. -/
theorem resplitAux_alnum_end (L : List Char) (fuel : ℕ) (acc : List Char)
    (h : ∀ c ∈ L, isUpperAlnum c = true) :
    resplitAux (fuel + L.length) acc L = [acc.reverse ++ L] := by
  have hw := resplitAux_alnum L fuel acc [] h
  rw [List.append_nil] at hw
  rw [hw, resplitAux_nil_r]
  simp

/-- Splitting `B1, B2` yields exactly the two tokens. -/
theorem resplit_pair (B1 : List Char) (b0 : Char) (B2' : List Char)
    (h1 : ∀ c ∈ B1, isUpperAlnum c = true)
    (h2 : ∀ c ∈ b0 :: B2', isUpperAlnum c = true) :
    resplit (B1 ++ ',' :: ' ' :: b0 :: B2') = [B1, b0 :: B2'] := by
  unfold resplit
  rw [show (B1 ++ ',' :: ' ' :: b0 :: B2').length + 1 = ((b0 :: B2').length + 3) + B1.length by
    simp [List.length_append, List.length_cons]
    omega]
  rw [resplitAux_alnum B1 _ [] _ h1]
  rw [show (b0 :: B2').length + 3 = ((b0 :: B2').length + 2) + 1 by omega]
  simp only [resplitAux, sepMatch_comma_space b0 B2' (h2 b0 (List.mem_cons_self b0 B2')),
    sepMatch_alnum B2' (h2 b0 (List.mem_cons_self b0 B2'))]
  rw [show (b0 :: B2').length + 1 = 2 + B2'.length by
    simp only [List.length_cons]
    omega]
  rw [resplitAux_alnum_end B2' 2 [b0] (fun d hd => h2 d (List.mem_cons_of_mem b0 hd))]
  simp

/-- A value inserted at some step of an insertion fold survives to the end. -/
theorem foldl_mem_of_insert {α : Type} (f : List String → α → List String)
    (hkeep : ∀ acc t, f acc t = acc ∨ ∃ y, f acc t = insertBase y acc) :
    ∀ (l : List α) (t0 : α), t0 ∈ l →
      ∀ (x : String), (∀ acc, f acc t0 = insertBase x acc) →
      ∀ acc, x ∈ l.foldl f acc
  | [], t0, ht0, _, _, _ => absurd ht0 (List.not_mem_nil t0)
  | t :: rest, t0, ht0, x, hx, acc => by
      rw [List.foldl_cons]
      rcases List.mem_cons.mp ht0 with rfl | ht0
      · have hmem : x ∈ f acc t0 := by
          rw [hx acc]
          exact (mem_insertBase acc).mpr (Or.inl rfl)
        exact mem_foldl_insert f rest (f acc t0) (fun a u _ => hkeep a u) x hmem
      · exact foldl_mem_of_insert f hkeep rest t0 ht0 x hx (f acc t)

/-- A non-date parenthesized token ends up in the extracted base set. -/
theorem mem_basesFromParentheses {t tok : List Char} (htok : tok ∈ parenScan t)
    (hd : isDateTok tok = false) :
    String.mk (tok.map Char.toUpper) ∈ basesFromParentheses t := by
  unfold basesFromParentheses
  refine foldl_mem_of_insert _ ?_ (parenScan t) tok htok (String.mk (tok.map Char.toUpper)) ?_ []
  · intro acc u
    by_cases hdu : isDateTok u = true
    · left
      rw [if_pos hdu]
    · right
      refine ⟨String.mk (u.map Char.toUpper), ?_⟩
      rw [if_neg hdu]
      by_cases hq : (u.map Char.toUpper == "USDT".data || u.map Char.toUpper == "USDC".data ||
          u.map Char.toUpper == "USD".data || u.map Char.toUpper == "FUTURES".data ||
          u.map Char.toUpper == "ALPHA".data) = true
      · rw [if_pos hq]
      · rw [if_neg hq]
  · intro acc
    rw [if_neg (by simp [hd])]
    by_cases hq : (tok.map Char.toUpper == "USDT".data || tok.map Char.toUpper == "USDC".data ||
        tok.map Char.toUpper == "USD".data || tok.map Char.toUpper == "FUTURES".data ||
        tok.map Char.toUpper == "ALPHA".data) = true
    · rw [if_pos hq]
    · rw [if_neg hq]

/-- A scanned `XUSDT` group ends up in the extracted base set. -/
theorem mem_basesFromUsdtPairs {t tok : List Char} (htok : tok ∈ usdtScan false t) :
    String.mk (tok.map Char.toUpper) ∈ basesFromUsdtPairs t := by
  unfold basesFromUsdtPairs
  exact foldl_mem_of_insert _ (fun acc u => Or.inr ⟨String.mk (u.map Char.toUpper), rfl⟩)
    (usdtScan false t) tok htok (String.mk (tok.map Char.toUpper)) (fun _ => rfl) []

/-- Members of the parenthesis set survive into the union. -/
theorem mem_union_left {t : List Char} {x : String} (hx : x ∈ basesFromParentheses t) :
    x ∈ (basesFromUsdtPairs t).foldl (fun acc y => insertBase y acc) (basesFromParentheses t) :=
  mem_foldl_insert _ (basesFromUsdtPairs t) (basesFromParentheses t)
    (fun a u _ => Or.inr ⟨u, rfl⟩) x hx

/-- Members of the USDT-pair set survive into the union. -/
theorem mem_union_right {t : List Char} {x : String} (hx : x ∈ basesFromUsdtPairs t) :
    x ∈ (basesFromUsdtPairs t).foldl (fun acc y => insertBase y acc) (basesFromParentheses t) :=
  foldl_mem_of_insert _ (fun acc u => Or.inr ⟨u, rfl⟩) (basesFromUsdtPairs t) x hx x
    (fun _ => rfl) (basesFromParentheses t)

/-- The decision on a title with a listing trigger, no delist occurrence and
a nonempty extracted base set is the listing branch. -/
theorem listing_decide (t : List Char) (hne : t.isEmpty = false)
    (hnod : containsSub "delist".data (lowerList t) = false)
    (htrig : listingTrigger (lowerList t) = true) (x : String)
    (hx : x ∈ (basesFromUsdtPairs t).foldl (fun acc y => insertBase y acc)
      (basesFromParentheses t)) :
    decide_trade_from_title (String.mk t) =
      ("long", (basesFromUsdtPairs t).foldl (fun acc y => insertBase y acc)
        (basesFromParentheses t)) := by
  have hwd : containsSub "will delist".data (lowerList t) = false := by
    by_contra hcon
    rw [Bool.not_eq_false] at hcon
    obtain ⟨a, y, hay⟩ := (containsSub_iff _ _).mp hcon
    have hdel : containsSub "delist".data (lowerList t) = true := by
      refine (containsSub_iff _ _).mpr ⟨a ++ "will ".data, y, ?_⟩
      rw [hay]
      simp only [List.append_assoc]
      rfl
    rw [hnod] at hdel
    exact absurd hdel Bool.false_ne_true
  have hdw : hasDelistWord false (lowerList t) = false := by
    by_contra hcon
    rw [Bool.not_eq_false] at hcon
    have hdel := hasDelistWord_sub _ _ hcon
    rw [hnod] at hdel
    exact absurd hdel Bool.false_ne_true
  unfold decide_trade_from_title
  rw [show (String.mk t).data = t from rfl]
  rw [if_neg (by rw [hne]; exact Bool.false_ne_true)]
  rw [if_neg (by rw [hwd, hdw]; simp)]
  rw [if_pos htrig]
  rw [if_neg (by
    rw [List.isEmpty_eq_false.mpr (List.ne_nil_of_mem hx)]
    exact Bool.false_ne_true)]

/-- A well-formed parenthesized token makes the decision a listing and is a
member of the returned bases. -/
theorem listing_paren_result (a b X : List Char)
    (hX : ∀ c ∈ X, isUpperAlnum c = true) (h2 : 2 ≤ X.length) (h15 : X.length ≤ 15)
    (hd : isDateTok X = false)
    (htrig : listingTrigger (lowerList (a ++ '(' :: (X ++ ')' :: b))) = true)
    (hnod : containsSub "delist".data (lowerList (a ++ '(' :: (X ++ ')' :: b))) = false) :
    ∃ bs, decide_trade_from_title (String.mk (a ++ '(' :: (X ++ ')' :: b))) = ("long", bs) ∧
      String.mk X ∈ bs := by
  have hmemP : String.mk (X.map Char.toUpper) ∈
      basesFromParentheses (a ++ '(' :: (X ++ ')' :: b)) :=
    mem_basesFromParentheses (parenScan_mem a X b hX h2 h15) hd
  rw [map_toUpper_alnum X hX] at hmemP
  have hmemU := mem_union_left hmemP
  have hne : (a ++ '(' :: (X ++ ')' :: b)).isEmpty = false := by
    rw [List.isEmpty_eq_false]
    simp
  exact ⟨_, listing_decide _ hne hnod htrig (String.mk X) hmemU, hmemU⟩

/-- A well-formed `XUSDT` token between word boundaries makes the decision
a listing and `X` a member of the returned bases. -/
theorem listing_usdt_result (a b X : List Char)
    (hX : ∀ c ∈ X, isUpperAlnum c = true) (h2 : 2 ≤ X.length) (h30 : X.length ≤ 30)
    (ha : a = [] ∨ ∃ a2 d, a = a2 ++ [d] ∧ isWordChar d = false)
    (hb : b = [] ∨ ∃ d b2, b = d :: b2 ∧ isWordChar d = false)
    (htrig : listingTrigger (lowerList (a ++ (X ++ ('U' :: 'S' :: 'D' :: 'T' :: b)))) = true)
    (hnod : containsSub "delist".data
      (lowerList (a ++ (X ++ ('U' :: 'S' :: 'D' :: 'T' :: b)))) = false) :
    ∃ bs, decide_trade_from_title
        (String.mk (a ++ (X ++ ('U' :: 'S' :: 'D' :: 'T' :: b)))) = ("long", bs) ∧
      String.mk X ∈ bs := by
  have hlast : ∀ a2 d, a = a2 ++ [d] → isWordChar d = false := by
    intro a2 d heq
    rcases ha with rfl | ⟨a3, e, rfl, he⟩
    · exact absurd heq.symm (by simp)
    · have hcg := congrArg List.getLast? heq
      rw [List.getLast?_concat, List.getLast?_concat] at hcg
      injection hcg with hde
      rw [hde] at he
      exact he
  have hmemS : String.mk (X.map Char.toUpper) ∈
      basesFromUsdtPairs (a ++ (X ++ ('U' :: 'S' :: 'D' :: 'T' :: b))) :=
    mem_basesFromUsdtPairs (usdtScan_mem a false X b (fun _ => rfl) hlast hX h2 h30 hb)
  rw [map_toUpper_alnum X hX] at hmemS
  have hmemU := mem_union_right hmemS
  have hne : (a ++ (X ++ ('U' :: 'S' :: 'D' :: 'T' :: b))).isEmpty = false := by
    rw [List.isEmpty_eq_false]
    simp
  exact ⟨_, listing_decide _ hne hnod htrig (String.mk X) hmemU, hmemU⟩

/-! ## C8: feed supervisor resilience -/

/-- Draining the pending frames of a connection leaves it connected with an
empty stream. -/
theorem supRun_connected_end (sign : String → String → String) (secret : String)
    (w : FeedWorld) :
    ∀ (ms : List FeedMsg) (i : ℕ),
      supRun sign secret w (SupState.connected i ms) (ms.length + 1) =
        SupState.disconnected (i + 1)
  | [], _ => rfl
  | m :: rest, i => by
      have := supRun_connected_end sign secret w rest i
      cases m <;> simpa [supRun, supStep] using this

/-- C8: a frame that fails to decode (malformed JSON or a non-`DATA`
envelope) is dropped without leaving the connected state or interrupting
the read loop; a decodable frame dispatches its payload; when the stream
ends, the supervisor sleeps exactly 1 unit and re-enters the next
connection attempt, which opens a URL freshly signed from that attempt's
nonce and timestamp; and from every state the supervisor reaches a
reconnection after finitely many steps — there is no terminal state. -/
theorem C8_feed_supervisor (sign : String → String → String) (secret : String)
    (w : FeedWorld) (i : ℕ) (rest : List FeedMsg) (p : Payload) :
    (supStep sign secret w (SupState.connected i (FeedMsg.malformed :: rest)) =
      (SupState.connected i rest, ⟨[], 0, none⟩)) ∧
    (supStep sign secret w (SupState.connected i (FeedMsg.wrongType :: rest)) =
      (SupState.connected i rest, ⟨[], 0, none⟩)) ∧
    (supStep sign secret w (SupState.connected i (FeedMsg.data p :: rest)) =
      (SupState.connected i rest, ⟨[p], 0, none⟩)) ∧
    (supStep sign secret w (SupState.connected i []) =
      (SupState.disconnected (i + 1), ⟨[], 1, none⟩)) ∧
    (supStep sign secret w (SupState.disconnected i) =
      (SupState.connected i (w.session i),
        ⟨[], 0, some (build_ws_url sign secret (w.nonce i) (w.ts i))⟩)) ∧
    (∀ s : SupState, ∃ k, (supObsAt sign secret w s k).urlOpened ≠ none) := by
  refine ⟨rfl, rfl, rfl, rfl, rfl, ?_⟩
  intro s
  cases s with
  | disconnected j =>
      exact ⟨0, by simp [supObsAt, supRun, supStep]⟩
  | connected j ms =>
      refine ⟨ms.length + 1, ?_⟩
      rw [supObsAt, supRun_connected_end sign secret w ms j]
      simp [supStep]

/-! ## C5, C9: listing extraction -/

/-- C5: a title with a listing trigger and no delist occurrence that either
contains a parenthesized alphanumeric token `X` of length 2-15 that is not
a date, or contains an alphanumeric token `X` immediately preceding a
literal `USDT` between word boundaries, is decided as a listing (code kind
`"long"`) with `X` among the returned bases. -/
theorem C5_listing_extraction :
    (∀ (a b X : List Char),
      (∀ c ∈ X, isUpperAlnum c = true) → 2 ≤ X.length → X.length ≤ 15 →
      isDateTok X = false →
      listingTrigger (lowerList (a ++ '(' :: (X ++ ')' :: b))) = true →
      containsSub "delist".data (lowerList (a ++ '(' :: (X ++ ')' :: b))) = false →
      ∃ bs, decide_trade_from_title (String.mk (a ++ '(' :: (X ++ ')' :: b))) = ("long", bs) ∧
        String.mk X ∈ bs) ∧
    (∀ (a b X : List Char),
      (∀ c ∈ X, isUpperAlnum c = true) → 2 ≤ X.length → X.length ≤ 30 →
      (a = [] ∨ ∃ a2 d, a = a2 ++ [d] ∧ isWordChar d = false) →
      (b = [] ∨ ∃ d b2, b = d :: b2 ∧ isWordChar d = false) →
      listingTrigger (lowerList (a ++ (X ++ ('U' :: 'S' :: 'D' :: 'T' :: b)))) = true →
      containsSub "delist".data
        (lowerList (a ++ (X ++ ('U' :: 'S' :: 'D' :: 'T' :: b)))) = false →
      ∃ bs, decide_trade_from_title
          (String.mk (a ++ (X ++ ('U' :: 'S' :: 'D' :: 'T' :: b)))) = ("long", bs) ∧
        String.mk X ∈ bs) :=
  ⟨fun a b X hX h2 h15 hd htrig hnod => listing_paren_result a b X hX h2 h15 hd htrig hnod,
   fun a b X hX h2 h30 ha hb htrig hnod => listing_usdt_result a b X hX h2 h30 ha hb htrig hnod⟩

/-- Witness for C5: the title `Binance Will List Foo (FOO)` decides to a
listing containing `FOO`, and `Binance will list BARUSDT` decides to a
listing containing `BAR`. -/
theorem C5_listing_extraction_witness :
    (∃ bs, decide_trade_from_title
        (String.mk ("Binance Will List Foo ".data ++ '(' :: ("FOO".data ++ ')' :: []))) =
        ("long", bs) ∧ String.mk "FOO".data ∈ bs) ∧
    (∃ bs, decide_trade_from_title
        (String.mk ("Binance will list ".data ++
          ("BAR".data ++ ('U' :: 'S' :: 'D' :: 'T' :: [])))) = ("long", bs) ∧
      String.mk "BAR".data ∈ bs) :=
  ⟨C5_listing_extraction.1 "Binance Will List Foo ".data [] "FOO".data
      (by decide) (by decide) (by decide) (by decide) (by decide) (by decide),
   C5_listing_extraction.2 "Binance will list ".data [] "BAR".data
      (by decide) (by decide) (by decide)
      (Or.inr ⟨"Binance will list".data, ' ', by decide, by decide⟩)
      (Or.inl rfl) (by decide) (by decide)⟩

/-- C9: a parenthesized token equal to a quote-currency or noise word is
still included in the returned bases of a listing decision: the membership
test on `{USDT, USDC, USD, FUTURES, ALPHA}` is followed by `pass` in the
source, so the token is added like any other. -/
theorem C9_noise_tokens_included (a b : List Char) (w : String)
    (hw : w ∈ (["USDT", "USDC", "USD", "FUTURES", "ALPHA"] : List String))
    (htrig : listingTrigger (lowerList (a ++ '(' :: (w.data ++ ')' :: b))) = true)
    (hnod : containsSub "delist".data (lowerList (a ++ '(' :: (w.data ++ ')' :: b))) = false) :
    ∃ bs, decide_trade_from_title (String.mk (a ++ '(' :: (w.data ++ ')' :: b))) =
        ("long", bs) ∧ w ∈ bs := by
  fin_cases hw <;>
    exact listing_paren_result a b _ (by decide) (by decide) (by decide) (by decide) htrig hnod

/-- Witness for C9: the title `Binance will list Foo (USDT)` decides to a
listing whose bases contain the noise token `USDT`. -/
theorem C9_noise_tokens_included_witness :
    ∃ bs, decide_trade_from_title
        (String.mk ("Binance will list Foo ".data ++ '(' :: ("USDT".data ++ ')' :: []))) =
        ("long", bs) ∧ "USDT" ∈ bs :=
  C9_noise_tokens_included "Binance will list Foo ".data [] "USDT" (by decide)
    (by decide) (by decide)

/-! ## C4: delisting extraction -/

/-- The delist extraction on a title of the shape
`pre ++ "will delist " ++ B1 ++ ", " ++ B2 ++ " on " ++ date` yields exactly
the two bases, provided no earlier `delist` occurrence exists. -/
theorem basesFromDelist_pair (pre B1 B2 date : List Char)
    (hB1a : ∀ c ∈ B1, isUpperAlnum c = true) (hB1l : 2 ≤ B1.length) (hB1u : B1.length ≤ 15)
    (hB1q : ¬ (B1 = "USDT".data ∨ B1 = "USDC".data ∨ B1 = "USD".data))
    (hB2a : ∀ c ∈ B2, isUpperAlnum c = true) (hB2l : 2 ≤ B2.length) (hB2u : B2.length ≤ 15)
    (hB2q : ¬ (B2 = "USDT".data ∨ B2 = "USDC".data ∨ B2 = "USD".data))
    (hpre : ∀ i, i < pre.length + 5 →
      lowerList (((pre ++ "will delist ".data ++ B1 ++ ", ".data ++ B2 ++ " on ".data ++
        date).drop i).take 6) ≠ "delist".data) :
    basesFromDelist (pre ++ "will delist ".data ++ B1 ++ ", ".data ++ B2 ++ " on ".data ++
        date) =
      insertBase (String.mk B2) (insertBase (String.mk B1) []) := by
  obtain ⟨b1, B1', rfl⟩ : ∃ b1 B1', B1 = b1 :: B1' := by
    cases B1 with
    | nil => simp at hB1l
    | cons b1 B1' => exact ⟨b1, B1', rfl⟩
  obtain ⟨b2, B2', rfl⟩ : ∃ b2 B2', B2 = b2 :: B2' := by
    cases B2 with
    | nil => simp at hB2l
    | cons b2 B2' => exact ⟨b2, B2', rfl⟩
  have hb1 : isUpperAlnum b1 = true := hB1a b1 (List.mem_cons_self b1 B1')
  have hb2 : isUpperAlnum b2 = true := hB2a b2 (List.mem_cons_self b2 B2')
  have hT1 : pre ++ "will delist ".data ++ (b1 :: B1') ++ ", ".data ++ (b2 :: B2') ++
      " on ".data ++ date =
      (pre ++ "will ".data) ++ ("delist".data ++
        (' ' :: ((b1 :: B1') ++ ',' :: ' ' ::
          ((b2 :: B2') ++ ' ' :: 'o' :: 'n' :: ' ' :: date)))) := by
    simp [List.append_assoc]
  have hT2 : pre ++ "will delist ".data ++ (b1 :: B1') ++ ", ".data ++ (b2 :: B2') ++
      " on ".data ++ date =
      ((pre ++ "will ".data) ++ "delist".data) ++
        (' ' :: ((b1 :: B1') ++ ',' :: ' ' ::
          ((b2 :: B2') ++ ' ' :: 'o' :: 'n' :: ' ' :: date))) := by
    simp [List.append_assoc]
  have hdtail : delistTail (' ' :: ((b1 :: B1') ++ ',' :: ' ' ::
      ((b2 :: B2') ++ ' ' :: 'o' :: 'n' :: ' ' :: date))) =
      some (((b1 :: B1') ++ ',' :: ' ' ::
        ((b2 :: B2') ++ ' ' :: 'o' :: 'n' :: ' ' :: date)).takeWhile (fun c => c ≠ '\n')) := by
    unfold delistTail
    have hws : ((' ' :: ((b1 :: B1') ++ ',' :: ' ' ::
        ((b2 :: B2') ++ ' ' :: 'o' :: 'n' :: ' ' :: date))).takeWhile isWs) = [' '] := by
      rw [List.takeWhile_cons]
      rw [if_pos (by decide)]
      rw [List.cons_append, List.takeWhile_cons, upperAlnum_not_ws hb1]
      simp
    rw [hws]
    simp only [List.length_cons, List.length_nil, findK]
    rw [show (' ' :: ((b1 :: B1') ++ ',' :: ' ' ::
        ((b2 :: B2') ++ ' ' :: 'o' :: 'n' :: ' ' :: date))).get? 1 = some b1 by
      rw [List.cons_append]
      rfl]
    dsimp only
    rw [if_neg (upperAlnum_ne_of hb1 (by decide))]
    rfl
  have hfind : findDelistAux (pre ++ "will delist ".data ++ (b1 :: B1') ++ ", ".data ++
      (b2 :: B2') ++ " on ".data ++ date) =
      some (((b1 :: B1') ++ ',' :: ' ' ::
        ((b2 :: B2') ++ ' ' :: 'o' :: 'n' :: ' ' :: date)).takeWhile (fun c => c ≠ '\n')) := by
    refine findDelistAux_at _ (pre.length + 5) _ hpre ?_ ?_
    · rw [hT1]
      rw [show pre.length + 5 = (pre ++ "will ".data).length by simp]
      rw [List.drop_left]
      rw [show (6 : ℕ) = ("delist".data).length from rfl]
      rw [List.take_left]
      decide
    · rw [hT2]
      rw [show pre.length + 5 + 6 = ((pre ++ "will ".data) ++ "delist".data).length by simp]
      rw [List.drop_left]
      exact hdtail
  have hnn : ∀ (L : List Char), (∀ c ∈ L, isUpperAlnum c = true) →
      ∀ c ∈ L, (fun c => decide (c ≠ '\n')) c = true := by
    intro L hL c hc
    exact decide_eq_true (upperAlnum_ne_of (hL c hc) (by decide))
  have hgrp : ((b1 :: B1') ++ ',' :: ' ' ::
      ((b2 :: B2') ++ ' ' :: 'o' :: 'n' :: ' ' :: date)).takeWhile (fun c => c ≠ '\n') =
      (b1 :: B1') ++ ',' :: ' ' ::
        ((b2 :: B2') ++ ' ' :: 'o' :: 'n' :: ' ' ::
          (date.takeWhile (fun c => c ≠ '\n'))) := by
    rw [takeWhile_append_all _ _ (hnn _ hB1a)]
    rw [List.takeWhile_cons]
    rw [if_pos (by decide)]
    rw [List.takeWhile_cons]
    rw [if_pos (by decide)]
    rw [takeWhile_append_all _ _ (hnn _ hB2a)]
    rw [List.takeWhile_cons]
    rw [if_pos (by decide)]
    rw [List.takeWhile_cons]
    rw [if_pos (by decide)]
    rw [List.takeWhile_cons]
    rw [if_pos (by decide)]
    rw [List.takeWhile_cons]
    rw [if_pos (by decide)]
  have hseg : takeBeforeOn ((b1 :: B1') ++ ',' :: ' ' ::
      ((b2 :: B2') ++ ' ' :: 'o' :: 'n' :: ' ' ::
        (date.takeWhile (fun c => c ≠ '\n')))) =
      (b1 :: B1') ++ ',' :: ' ' :: (b2 :: B2') := by
    rw [takeBeforeOn_alnum _ _ hB1a]
    rw [takeBeforeOn_cons_ne _ (by decide : ',' ≠ ' ')]
    rw [show (' ' : Char) :: ((b2 :: B2') ++ ' ' :: 'o' :: 'n' :: ' ' ::
        (date.takeWhile (fun c => c ≠ '\n'))) =
      ' ' :: b2 :: (B2' ++ ' ' :: 'o' :: 'n' :: ' ' ::
        (date.takeWhile (fun c => c ≠ '\n'))) from rfl]
    rw [takeBeforeOn_space_ne _ (upperAlnum_ne_of hb2 (by decide))]
    rw [show b2 :: (B2' ++ ' ' :: 'o' :: 'n' :: ' ' ::
        (date.takeWhile (fun c => c ≠ '\n'))) =
      (b2 :: B2') ++ ' ' :: 'o' :: 'n' :: ' ' ::
        (date.takeWhile (fun c => c ≠ '\n')) from rfl]
    rw [takeBeforeOn_alnum _ _ hB2a]
    rw [show takeBeforeOn (' ' :: 'o' :: 'n' :: ' ' ::
        (date.takeWhile (fun c => c ≠ '\n'))) = [] by
      simp only [takeBeforeOn]
      rw [if_pos (by
        rw [List.take_succ_cons, List.take_succ_cons, List.take_succ_cons,
          List.take_succ_cons, List.take_zero]
        rfl)]]
    simp
  unfold basesFromDelist
  rw [hfind]
  simp only [hgrp, hseg]
  rw [resplit_pair (b1 :: B1') b2 B2' hB1a hB2a]
  simp only [List.foldl_cons, List.foldl_nil]
  rw [stripWs_alnum _ hB1a, map_toUpper_alnum _ hB1a,
    stripWs_alnum _ hB2a, map_toUpper_alnum _ hB2a]
  have hg2 : (2 ≤ (b2 :: B2').length ∧ (b2 :: B2').length ≤ 15 ∧
      ((b2 :: B2').all isUpperAlnum) = true) ∧
      ¬((((b2 :: B2' : List Char)) == "USDT".data) = true ∨
        (((b2 :: B2' : List Char)) == "USDC".data) = true ∨
        (((b2 :: B2' : List Char)) == "USD".data) = true) := by
    simp only [beq_iff_eq]
    exact ⟨⟨hB2l, hB2u, List.all_eq_true.mpr hB2a⟩, hB2q⟩
  have hg1 : (2 ≤ (b1 :: B1').length ∧ (b1 :: B1').length ≤ 15 ∧
      ((b1 :: B1').all isUpperAlnum) = true) ∧
      ¬((((b1 :: B1' : List Char)) == "USDT".data) = true ∨
        (((b1 :: B1' : List Char)) == "USDC".data) = true ∨
        (((b1 :: B1' : List Char)) == "USD".data) = true) := by
    simp only [beq_iff_eq]
    exact ⟨⟨hB1l, hB1u, List.all_eq_true.mpr hB1a⟩, hB1q⟩
  rw [if_pos hg2, if_pos hg1]

/-- C4: a title of the shape `pre ++ "will delist " ++ B1 ++ ", " ++ B2 ++
" on " ++ date`, where the bases are valid ticker tokens and `pre` contains
no earlier `delist` occurrence, is decided as a delisting (code kind
`"short"`, spec kind `Delisting`) whose base set is exactly `{B1, B2}`; the
date token after `" on "` is never included. -/
theorem C4_delist_extraction (pre B1 B2 date : List Char)
    (hB1a : ∀ c ∈ B1, isUpperAlnum c = true) (hB1l : 2 ≤ B1.length) (hB1u : B1.length ≤ 15)
    (hB1q : ¬ (B1 = "USDT".data ∨ B1 = "USDC".data ∨ B1 = "USD".data))
    (hB2a : ∀ c ∈ B2, isUpperAlnum c = true) (hB2l : 2 ≤ B2.length) (hB2u : B2.length ≤ 15)
    (hB2q : ¬ (B2 = "USDT".data ∨ B2 = "USDC".data ∨ B2 = "USD".data))
    (hdate : ¬ ∀ c ∈ date, isUpperAlnum c = true)
    (hpre : ∀ i, i < pre.length + 5 →
      lowerList (((pre ++ "will delist ".data ++ B1 ++ ", ".data ++ B2 ++ " on ".data ++
        date).drop i).take 6) ≠ "delist".data) :
    ∃ bs,
      decide_trade_from_title (String.mk (pre ++ "will delist ".data ++ B1 ++ ", ".data ++
        B2 ++ " on ".data ++ date)) = ("short", bs) ∧
      decide_event_from_title (String.mk (pre ++ "will delist ".data ++ B1 ++ ", ".data ++
        B2 ++ " on ".data ++ date)) = ("delisting", bs) ∧
      (∀ x, x ∈ bs ↔ x = String.mk B1 ∨ x = String.mk B2) ∧
      String.mk date ∉ bs := by
  have hbases := basesFromDelist_pair pre B1 B2 date hB1a hB1l hB1u hB1q hB2a hB2l hB2u
    hB2q hpre
  have hmemiff : ∀ x, x ∈ insertBase (String.mk B2) (insertBase (String.mk B1) []) ↔
      x = String.mk B1 ∨ x = String.mk B2 := by
    intro x
    rw [mem_insertBase, mem_insertBase]
    simp only [List.not_mem_nil, or_false]
    tauto
  have hwd : containsSub "will delist".data
      (lowerList (pre ++ "will delist ".data ++ B1 ++ ", ".data ++ B2 ++ " on ".data ++
        date)) = true := by
    refine (containsSub_iff _ _).mpr ⟨lowerList pre,
      lowerList (' ' :: (B1 ++ ", ".data ++ B2 ++ " on ".data ++ date)), ?_⟩
    have : pre ++ "will delist ".data ++ B1 ++ ", ".data ++ B2 ++ " on ".data ++ date =
        pre ++ ("will delist".data ++ (' ' :: (B1 ++ ", ".data ++ B2 ++ " on ".data ++
          date))) := by
      simp [List.append_assoc]
    rw [this]
    unfold lowerList
    rw [List.map_append, List.map_append]
    rw [show "will delist".data.map Char.toLower = "will delist".data by decide]
  have hdec : decide_trade_from_title (String.mk (pre ++ "will delist ".data ++ B1 ++
      ", ".data ++ B2 ++ " on ".data ++ date)) =
      ("short", insertBase (String.mk B2) (insertBase (String.mk B1) [])) := by
    unfold decide_trade_from_title
    rw [show (String.mk (pre ++ "will delist ".data ++ B1 ++ ", ".data ++ B2 ++
      " on ".data ++ date)).data = pre ++ "will delist ".data ++ B1 ++ ", ".data ++ B2 ++
      " on ".data ++ date from rfl]
    rw [if_neg (by
      rw [List.isEmpty_eq_false.mpr (by simp)]
      exact Bool.false_ne_true)]
    rw [if_pos (by rw [hwd]; simp)]
    rw [hbases]
    rw [if_neg (by
      rw [List.isEmpty_eq_false.mpr (List.ne_nil_of_mem
        ((mem_insertBase _).mpr (Or.inl rfl)))]
      exact Bool.false_ne_true)]
  refine ⟨insertBase (String.mk B2) (insertBase (String.mk B1) []), hdec, ?_, hmemiff, ?_⟩
  · unfold decide_event_from_title
    rw [hdec]
    simp
  · intro hmem
    rcases (hmemiff _).mp hmem with h | h
    · have : date = B1 := by
        have := congrArg String.data h
        exact this
      rw [this] at hdate
      exact hdate hB1a
    · have : date = B2 := by
        have := congrArg String.data h
        exact this
      rw [this] at hdate
      exact hdate hB2a

/-- Witness for C4: the title `Binance will delist BAR, BAZ on 2025-01-01`
is decided as a delisting with bases exactly `{BAR, BAZ}` and the date is
not among them. -/
theorem C4_delist_extraction_witness :
    ∃ bs,
      decide_trade_from_title (String.mk ("Binance ".data ++ "will delist ".data ++
        "BAR".data ++ ", ".data ++ "BAZ".data ++ " on ".data ++ "2025-01-01".data)) =
        ("short", bs) ∧
      decide_event_from_title (String.mk ("Binance ".data ++ "will delist ".data ++
        "BAR".data ++ ", ".data ++ "BAZ".data ++ " on ".data ++ "2025-01-01".data)) =
        ("delisting", bs) ∧
      (∀ x, x ∈ bs ↔ x = String.mk "BAR".data ∨ x = String.mk "BAZ".data) ∧
      String.mk "2025-01-01".data ∉ bs :=
  C4_delist_extraction "Binance ".data "BAR".data "BAZ".data "2025-01-01".data
    (by decide) (by decide) (by decide) (by decide)
    (by decide) (by decide) (by decide) (by decide)
    (by decide) (by decide)

/-- C3: end-to-end listing scenario. The payload with title
`Binance Will List Foo (FOO)` and catalogId 48 passes the category filter,
is decided as a listing with bases `["FOO"]`, and when the `listing` rule
routes side `long` to the venue names `es`, the handler launches exactly one
`buy` trade call per routed, configured venue, built from that venue and its
long position config. -/
theorem C3_listing_scenario (dc : String → Option DecisionCfg)
    (tc : String → String → Option MarketCfg) (exs : List Exch) (es : List String)
    (hdc : dc "listing" = some { side := "long", exchanges := es }) :
    decide_event_from_title "Binance Will List Foo (FOO)" = ("listing", ["FOO"]) ∧
    handlePayloadCalls dc tc
        { title := "Binance Will List Foo (FOO)", catalogId := some 48 } exs =
      exs.filterMap (fun ex =>
        if ex.name ∈ es then
          match tc ex.name ex.market with
          | some cfg => some { exName := ex.name,
                               symbol := ex.symbolFromBase "FOO",
                               side := "buy",
                               notional := cfg.long.notional,
                               tp_pct := cfg.long.tp_pct,
                               sl_pct := cfg.long.sl_pct,
                               leverage := leverageOr1 cfg.long.leverage }
          | none => none
        else none) ∧
    (∀ call ∈ handlePayloadCalls dc tc
        { title := "Binance Will List Foo (FOO)", catalogId := some 48 } exs,
      call.side = "buy") := by
  have hdec : decide_event_from_title "Binance Will List Foo (FOO)" =
      ("listing", ["FOO"]) := by decide
  have hmain : handlePayloadCalls dc tc
      { title := "Binance Will List Foo (FOO)", catalogId := some 48 } exs =
      exs.filterMap (fun ex =>
        if ex.name ∈ es then
          match tc ex.name ex.market with
          | some cfg => some { exName := ex.name,
                               symbol := ex.symbolFromBase "FOO",
                               side := "buy",
                               notional := cfg.long.notional,
                               tp_pct := cfg.long.tp_pct,
                               sl_pct := cfg.long.sl_pct,
                               leverage := leverageOr1 cfg.long.leverage }
          | none => none
        else none) := by
    unfold handlePayloadCalls
    rw [show CATALOG_FILTER (categoryOf { title := "Binance Will List Foo (FOO)", catalogId := some 48 }) = true from rfl]
    rw [if_neg (show ¬ ((!true : Bool) = true) by decide)]
    rw [show ({ title := "Binance Will List Foo (FOO)", catalogId := some 48 } : Payload).title = "Binance Will List Foo (FOO)" from rfl]
    rw [hdec]
    dsimp only
    rw [if_neg (show ¬ (("listing" : String) = "none" ∨
      List.isEmpty (["FOO"] : List String) = true) by decide)]
    rw [hdc]
    dsimp only
    rw [List.flatMap_cons, List.flatMap_nil, List.append_nil]
    refine List.filterMap_congr ?_
    intro ex hex
    dsimp only
    by_cases hme : ex.name ∈ es
    · rw [if_pos hme, if_pos hme]
      cases htc : tc ex.name ex.market with
      | none => rfl
      | some cfg =>
          dsimp only
          rw [if_pos (rfl : ("long" : String) = "long"),
            if_pos (rfl : ("long" : String) = "long")]
    · rw [if_neg hme, if_neg hme]
  refine ⟨hdec, hmain, ?_⟩
  intro call hc
  rw [hmain] at hc
  obtain ⟨ex, hex, heq⟩ := List.mem_filterMap.mp hc
  by_cases hme : ex.name ∈ es
  · rw [if_pos hme] at heq
    cases htc : tc ex.name ex.market with
    | none => rw [htc] at heq; simp at heq
    | some cfg =>
        rw [htc] at heq
        dsimp only at heq
        injection heq with h
        rw [← h]
  · rw [if_neg hme] at heq
    simp at heq

/-- Witness for C3: a single venue named `kucoin` routed by the `listing`
rule produces the single buy call described by the theorem. -/
theorem C3_listing_scenario_witness :
    decide_event_from_title "Binance Will List Foo (FOO)" = ("listing", ["FOO"]) ∧
    handlePayloadCalls
        (fun k => if k = "listing" then
          some { side := "long", exchanges := ["kucoin"] } else none)
        (fun _ _ => some
          { long := { notional := 100, leverage := some 5, tp_pct := 1, sl_pct := 1 },
            short := { notional := 100, leverage := some 5, tp_pct := 1, sl_pct := 1 } })
        { title := "Binance Will List Foo (FOO)", catalogId := some 48 }
        [{ name := "kucoin", market := "futures",
           symbolFromBase := fun b => String.append b "USDTM" }] =
      [({ name := "kucoin", market := "futures",
          symbolFromBase := fun b => String.append b "USDTM" } : Exch)].filterMap
        (fun ex =>
          if ex.name ∈ ["kucoin"] then
            match (fun (_ _ : String) => some (({ long := { notional := 100, leverage := some 5, tp_pct := 1, sl_pct := 1 }, short := { notional := 100, leverage := some 5, tp_pct := 1, sl_pct := 1 } } : MarketCfg))) ex.name ex.market with
            | some cfg => some { exName := ex.name,
                                 symbol := ex.symbolFromBase "FOO",
                                 side := "buy",
                                 notional := cfg.long.notional,
                                 tp_pct := cfg.long.tp_pct,
                                 sl_pct := cfg.long.sl_pct,
                                 leverage := leverageOr1 cfg.long.leverage }
            | none => none
          else none) ∧
    (∀ call ∈ handlePayloadCalls
        (fun k => if k = "listing" then
          some { side := "long", exchanges := ["kucoin"] } else none)
        (fun _ _ => some
          { long := { notional := 100, leverage := some 5, tp_pct := 1, sl_pct := 1 },
            short := { notional := 100, leverage := some 5, tp_pct := 1, sl_pct := 1 } })
        { title := "Binance Will List Foo (FOO)", catalogId := some 48 }
        [{ name := "kucoin", market := "futures",
           symbolFromBase := fun b => String.append b "USDTM" }],
      call.side = "buy") :=
  C3_listing_scenario
    (fun k => if k = "listing" then
      some { side := "long", exchanges := ["kucoin"] } else none)
    (fun _ _ => some
      { long := { notional := 100, leverage := some 5, tp_pct := 1, sl_pct := 1 },
        short := { notional := 100, leverage := some 5, tp_pct := 1, sl_pct := 1 } })
    [{ name := "kucoin", market := "futures",
       symbolFromBase := fun b => String.append b "USDTM" }]
    ["kucoin"]
    (by simp)

end BncAnc
